import Mathlib

/-!
Verification of the SVG_Optimize core logic (src/App.tsx).

The development shallowly embeds the program's core functions:

* `optimizeSvgBase` — parse the input markup, conditionally strip attributes,
  re-serialize (App.tsx lines 12–51).  The browser's `DOMParser` /
  `XMLSerializer` facility is not part of the repository; following the
  spec's own abstraction of it (a `parse/serialize/removeAttr` markup-document
  capability) it is bound here to an executable XML parser and serializer over
  `List Char`.  Parse errors are modelled by `Option.none` (the browser
  signals them through an error document detected via
  `querySelector('parsererror')`).  XML entity references and single-quoted
  attribute values are not modelled; no claim depends on them.
* `previewRenderSvg` — the regex-based color substitution on the first
  `<svg...>` opening-tag match (App.tsx lines 250–260).
* `parsedSizes` — the comma-separated size-list parsing with JavaScript
  `parseInt` semantics (App.tsx lines 234–239).
* `svgPreviewUrl` — the base64 `data:` URL construction
  (`btoa(unescape(encodeURIComponent(text)))`, App.tsx lines 266–275);
  the net effect, base64 over the UTF-8 bytes, is modelled directly.

Strings are handled as `List Char`; the `String` wrappers at the API
boundary mirror the JavaScript string values.
-/

/-! ## Character classes -/

/-- Whitespace as recognised by JavaScript's `String.prototype.trim` and
`parseInt`: the ECMAScript WhiteSpace and LineTerminator code points, i.e.
TAB, LF, VT, FF, CR, SP, NBSP, LS, PS, ZWNBSP and the Unicode
space-separator (Zs) category (U+1680, U+2000..U+200A, U+202F, U+205F,
U+3000). -/
def isJsWhitespace (c : Char) : Bool :=
  let n := c.toNat
  n = 0x20 || n = 0x9 || n = 0xA || n = 0xD || n = 0xB || n = 0xC ||
  n = 0xA0 || n = 0x1680 || (0x2000 ≤ n && n ≤ 0x200A) ||
  n = 0x2028 || n = 0x2029 || n = 0x202F || n = 0x205F || n = 0x3000 || n = 0xFEFF

/-- Whitespace inside markup (XML S production). -/
def isXmlSpace (c : Char) : Bool :=
  c = ' ' || c = '\t' || c = '\n' || c = '\r'

/-- Characters allowed in an element or attribute name (ASCII fragment of
the XML Name production, as used by the parser model). -/
def isNameChar (c : Char) : Bool :=
  c.isAlphanum || c = '-' || c = '_' || c = ':' || c = '.'

/-! ## JavaScript string helpers -/

/-- `String.prototype.trim`: drop leading and trailing whitespace. -/
def jsTrim (l : List Char) : List Char :=
  ((l.dropWhile isJsWhitespace).reverse.dropWhile isJsWhitespace).reverse

/-- `String.prototype.split(',')` on a character list.  Splitting the empty
string yields `[[]]`, as in JavaScript. -/
def splitOnComma : List Char → List (List Char)
  | [] => [[]]
  | c :: r =>
    if c = ',' then [] :: splitOnComma r
    else
      match splitOnComma r with
      | [] => [[c]]
      | t :: ts => (c :: t) :: ts

/-- Numeric value of a (nonempty) run of decimal digits. -/
def digitsToNat (l : List Char) : Nat :=
  l.foldl (fun acc c => acc * 10 + (c.toNat - 48)) 0

/-- The longest leading digit run, as a number; `none` when there is none. -/
def parseDigits (l : List Char) : Option Nat :=
  let d := l.takeWhile Char.isDigit
  if d.isEmpty then none else some (digitsToNat d)

/-- Floor of the base-2 logarithm by fuel-bounded halving (`Nat.log2`
itself is defined by well-founded recursion, which the kernel cannot
evaluate). -/
def log2Fuel : Nat → Nat → Nat
  | 0, _ => 0
  | fuel + 1, n => if 2 ≤ n then log2Fuel fuel (n / 2) + 1 else 0

/-- Floor of the base-2 logarithm (0 at 0). -/
def natLog2 (n : Nat) : Nat := log2Fuel n n

/-- The nearest IEEE-754 binary64 value of a natural number (round to
nearest, ties to even): JavaScript numbers have a 53-bit significand, so an
integer at least `2^53` is rounded at the bit below the 53rd.  Finite-range
overflow to Infinity (at and above `2^1024 - 2^971`) is outside the
modelled scope. -/
def toFloat64Nat (n : Nat) : Nat :=
  if n < 2 ^ 53 then n
  else
    let e := natLog2 n - 52
    let q := n / 2 ^ e
    let r := n % 2 ^ e
    if 2 ^ e < 2 * r ∨ (2 * r = 2 ^ e ∧ q % 2 = 1) then (q + 1) * 2 ^ e
    else q * 2 ^ e

/-- JavaScript `parseInt(s, 10)`: skip leading whitespace, read an optional
sign and the longest leading digit run; `none` models `NaN`.  The exact
digit value is then rounded to the nearest IEEE-754 binary64, as JavaScript
numbers are. -/
def parseIntJs (l : List Char) : Option Int :=
  match l.dropWhile isJsWhitespace with
  | [] => none
  | c :: r =>
    if c = '-' then (parseDigits r).map (fun n => -((toFloat64Nat n : Nat) : Int))
    else if c = '+' then (parseDigits r).map (fun n => ((toFloat64Nat n : Nat) : Int))
    else (parseDigits (c :: r)).map (fun n => ((toFloat64Nat n : Nat) : Int))

/-- `parsedSizes` (App.tsx lines 234–239): split `outputSizes` on commas,
trim each token, parse it with `parseInt(·, 10)`, and keep the values that
are numbers and strictly positive. -/
def parsedSizes (outputSizes : String) : List Int :=
  ((splitOnComma outputSizes.data).map (fun t => parseIntJs (jsTrim t))).filterMap
    (fun o =>
      match o with
      | some n => if 0 < n then some n else none
      | none => none)

/-! ## Markup document model

The browser parse/serialize facility (`DOMParser` / `XMLSerializer`) is
external to the repository; per the spec it is a markup-document capability
`parse(text) -> Document | ParseFailure`, `serialize(Document) -> text`,
with attribute-level mutation.  It is bound here to an executable XML
parser and serializer. -/

/-- An attribute node: a name and a value. -/
structure XAttr where
  name : List Char
  value : List Char
deriving DecidableEq

/-- A markup node: an element with attributes and children, or character
data. -/
inductive XNode where
  | element (tag : List Char) (attrs : List XAttr) (children : List XNode)
  | text (s : List Char)

/-- Serialize an attribute list: a leading space, then `name="value"` for
each attribute. -/
def serializeAttrs : List XAttr → List Char
  | [] => []
  | a :: rest => ' ' :: (a.name ++ '=' :: '"' :: (a.value ++ '"' :: serializeAttrs rest))

mutual

/-- `XMLSerializer.serializeToString`: childless elements self-close, others
get an explicit end tag. -/
def serializeNode : XNode → List Char
  | .text s => s
  | .element tag attrs children =>
    '<' :: (tag ++ serializeAttrs attrs ++
      (match children with
       | [] => ['/', '>']
       | _ => '>' :: (serializeNodeList children ++ '<' :: '/' :: (tag ++ ['>']))))

/-- Serialize a list of sibling nodes in order. -/
def serializeNodeList : List XNode → List Char
  | [] => []
  | n :: rest => serializeNode n ++ serializeNodeList rest

end

/-! ## Markup parser -/

/-- Drop leading markup whitespace. -/
def skipXmlSpace (l : List Char) : List Char := l.dropWhile isXmlSpace

/-- Parse a nonempty name (longest run of name characters). -/
def parseXmlName (l : List Char) : Option (List Char × List Char) :=
  let n := l.takeWhile isNameChar
  if n.isEmpty then none else some (n, l.dropWhile isNameChar)

/-- Parse a (possibly empty) list of `name="value"` attributes, skipping
surrounding whitespace, and stop before the first non-name character. -/
def parseXmlAttrs : Nat → List Char → Option (List XAttr × List Char)
  | 0, _ => none
  | Nat.succ fuel, l =>
    match skipXmlSpace l with
    | [] => some ([], [])
    | c :: r =>
      if isNameChar c then
        let n := (c :: r).takeWhile isNameChar
        let r1 := (c :: r).dropWhile isNameChar
        match skipXmlSpace r1 with
        | [] => none
        | c1 :: r2 =>
          if c1 = '=' then
            match skipXmlSpace r2 with
            | [] => none
            | c2 :: r3 =>
              if c2 = '"' then
                let v := r3.takeWhile (fun d => d != '"')
                match r3.dropWhile (fun d => d != '"') with
                | [] => none
                | c3 :: r4 =>
                  if c3 = '"' then
                    match parseXmlAttrs fuel r4 with
                    | some (attrs, r5) => some (⟨n, v⟩ :: attrs, r5)
                    | none => none
                  else none
              else none
          else none
      else some ([], c :: r)

mutual

/-- Expect `>` (optionally after whitespace, as in an end tag `</name >`).
Returns the rest after the `>`. -/
def expectGt (l : List Char) : Option (List Char) :=
  match skipXmlSpace l with
  | [] => none
  | c :: r => if c = '>' then some r else none

/-- Parse one element: `<name attrs/>` or `<name attrs>children</name>`. -/
def parseElement : Nat → List Char → Option (XNode × List Char)
  | 0, _ => none
  | Nat.succ _, [] => none
  | Nat.succ fuel, c :: r =>
      if c = '<' then
        match parseXmlName r with
        | some (tag, r1) =>
          match parseXmlAttrs (r1.length + 1) r1 with
          | some (attrs, r2) =>
            match r2 with
            | [] => none
            | c2 :: r3 =>
              if c2 = '/' then
                match r3 with
                | [] => none
                | c3 :: r4 => if c3 = '>' then some (.element tag attrs [], r4) else none
              else if c2 = '>' then
                match parseNodes fuel r3 with
                | some (children, r4) =>
                  match r4 with
                  | c4 :: c5 :: r5 =>
                    if c4 = '<' ∧ c5 = '/' ∧ tag.isPrefixOf r5 then
                      match expectGt (r5.drop tag.length) with
                      | some r6 => some (.element tag attrs children, r6)
                      | none => none
                    else none
                  | _ => none
                | none => none
              else none
          | none => none
        | none => none
      else none

/-- Parse a sibling list: stop at the end of input or before a close tag. -/
def parseNodes : Nat → List Char → Option (List XNode × List Char)
  | 0, _ => none
  | Nat.succ _, [] => some ([], [])
  | Nat.succ fuel, c :: r =>
      if c = '<' then
        if r.take 1 = ['/'] then some ([], c :: r)
        else
          match parseElement fuel (c :: r) with
          | some (n, rest) =>
            match parseNodes fuel rest with
            | some (ns, r2) => some (n :: ns, r2)
            | none => none
          | none => none
      else
        let t := (c :: r).takeWhile (fun d => d != '<')
        match parseNodes fuel ((c :: r).dropWhile (fun d => d != '<')) with
        | some (ns, r2) => some (.text t :: ns, r2)
        | none => none

end

/-- The parse entry point (`DOMParser.parseFromString(·, "image/svg+xml")`):
a single root element with optional surrounding whitespace.  `none` models
a reported parse error. -/
def parseXml (s : String) : Option XNode :=
  let l := skipXmlSpace s.data
  match parseElement (l.length + 1) l with
  | some (n, rest) => if (skipXmlSpace rest).isEmpty then some n else none
  | none => none

/-! ## The attribute transformer (`optimizeSvgBase`, App.tsx 12–51) -/

/-- The transform options consumed by `optimizeSvgBase` (the `SvgOptions`
record without the preview-only fields). -/
structure BaseOptions where
  removeClasses : Bool
  removeWidth : Bool
  removeHeight : Bool
  removeXmlns : Bool

/-- The characters of `"xmlns"`. -/
def xmlnsChars : List Char := ['x', 'm', 'l', 'n', 's']
/-- The characters of `"width"`. -/
def widthChars : List Char := ['w', 'i', 'd', 't', 'h']
/-- The characters of `"height"`. -/
def heightChars : List Char := ['h', 'e', 'i', 'g', 'h', 't']
/-- The characters of `"class"`. -/
def classChars : List Char := ['c', 'l', 'a', 's', 's']
/-- The characters of `"svg"`. -/
def svgChars : List Char := ['s', 'v', 'g']

/-- `Element.removeAttribute`: drop the attribute with the given name. -/
def removeAttr (name : List Char) (attrs : List XAttr) : List XAttr :=
  attrs.filter (fun a => a.name != name)

/-- Remove an attribute on the root element only. -/
def removeRootAttr (name : List Char) : XNode → XNode
  | .text s => .text s
  | .element t attrs cs => .element t (removeAttr name attrs) cs

mutual

/-- `svgElement.querySelectorAll('*').forEach(el => el.removeAttribute('class'))`
followed by `svgElement.removeAttribute('class')`: drop `class` from the
root and from every descendant element. -/
def removeClassDeep : XNode → XNode
  | .text s => .text s
  | .element t attrs cs => .element t (removeAttr classChars attrs) (removeClassDeepList cs)

/-- `removeClassDeep` on each node of a list. -/
def removeClassDeepList : List XNode → List XNode
  | [] => []
  | n :: rest => removeClassDeep n :: removeClassDeepList rest

end

/-- `doc.documentElement.tagName.toLowerCase()` of a parsed document. -/
def rootTagLower : XNode → List Char
  | .text _ => []
  | .element t _ _ => t.map Char.toLower

/-- The four conditional attribute removals of `optimizeSvgBase`, in source
order (xmlns, width, height, classes). -/
def applyOptions (o : BaseOptions) (root : XNode) : XNode :=
  let r1 := if o.removeXmlns then removeRootAttr xmlnsChars root else root
  let r2 := if o.removeWidth then removeRootAttr widthChars r1 else r1
  let r3 := if o.removeHeight then removeRootAttr heightChars r2 else r2
  if o.removeClasses then removeClassDeep r3 else r3

/-- `optimizeSvgBase` (App.tsx 12–51): empty out whitespace-only input
without parsing; echo the input on a parse error or when the root tag is
not (case-insensitively) `svg`; otherwise strip the selected attributes
and re-serialize.  The `catch` is unnecessary in this total model. -/
def optimizeSvgBase (svgString : String) (o : BaseOptions) : String :=
  if svgString.data.all isJsWhitespace then ""
  else
    match parseXml svgString with
    | none => svgString
    | some root =>
      if rootTagLower root ≠ svgChars then svgString
      else String.mk (serializeNode (applyOptions o root))

/-! ## The preview compositor (`previewRenderSvg`, App.tsx 250–260) -/

/-- Scan to the first `'>'`: the matched attribute text and the rest.
`none` when no `'>'` follows (then the regex `/<svg([^>]*?)>/` has no match
anywhere later either, since any later candidate lies inside this suffix). -/
def scanToGt : List Char → Option (List Char × List Char)
  | [] => none
  | '>' :: r => some ([], r)
  | c :: r => (scanToGt r).map (fun p => (c :: p.1, p.2))

/-- The characters `<svg` opening a root-tag match. -/
def svgOpenChars : List Char := ['<', 's', 'v', 'g']

/-- The first match of `/<svg([^>]*?)>/`: the text before the match, the
captured attribute text, and the text after the match.  At the first
position starting with `<svg`, the capture runs to the next `'>'`; when no
`'>'` follows, no later position can match either (any later candidate
lies inside this suffix), so the whole search fails there. -/
def findSvgTag : List Char → Option (List Char × List Char × List Char)
  | [] => none
  | c :: r =>
    if svgOpenChars.isPrefixOf (c :: r) then
      match scanToGt ((c :: r).drop 4) with
      | some (attrs, rest) => some ([], attrs, rest)
      | none => none
    else
      (findSvgTag r).map (fun t => (c :: t.1, t.2.1, t.2.2))

/-- The characters of the pattern `fill="` . -/
def fillPat : List Char := ['f', 'i', 'l', 'l', '=', '"']
/-- The characters of the pattern `stroke="` . -/
def strokePat : List Char := ['s', 't', 'r', 'o', 'k', 'e', '=', '"']

/-- Scan past a quoted body: drop characters up to and including the next
`'"'`; `none` when the quote never closes (then the regex has no match). -/
def dropQuoted : List Char → Option (List Char)
  | [] => none
  | '"' :: r => some r
  | _ :: r => dropQuoted r

/-- `String.prototype.replace(/pat"[^"]*"/, '')` for a literal prefix `pat`
ending in a quote: delete the first `pat…"` occurrence, if any. -/
def removeFirstQuotedAttr (pat : List Char) : List Char → List Char
  | [] => []
  | c :: r =>
    if pat.isPrefixOf (c :: r) then
      match dropQuoted ((c :: r).drop pat.length) with
      | some rest => rest
      | none => c :: r
    else c :: removeFirstQuotedAttr pat r

/-- The characters of `" fill=\""` appended before the preview color. -/
def fillEqChars : List Char := [' ', 'f', 'i', 'l', 'l', '=', '"']

/-- ECMAScript `GetSubstitution` for a replacement template against a match
with one capture group (m = 1): expand `$$` to a dollar sign, `$&` to the
matched text, a dollar sign followed by a backquote (`Char.ofNat 96`) to
the text before the match, a dollar sign followed by a straight quote
(`Char.ofNat 39`) to the text after the match, and `$1`/`$01` to the first
capture; a two-digit reference whose value exceeds the group count falls
back to its one-digit prefix, `$0`/`$00` and references beyond the group
count stay literal, as does a dollar sign followed by anything else. -/
def getSubstitution (matched before after cap1 : List Char) : List Char → List Char
  | [] => []
  | c :: rest =>
    if c = '$' then
      match rest with
      | [] => ['$']
      | c2 :: t =>
        if c2 = '$' then '$' :: getSubstitution matched before after cap1 t
        else if c2 = '&' then matched ++ getSubstitution matched before after cap1 t
        else if c2 = Char.ofNat 96 then before ++ getSubstitution matched before after cap1 t
        else if c2 = Char.ofNat 39 then after ++ getSubstitution matched before after cap1 t
        else if c2.isDigit then
          match t with
          | [] => if c2 = '1' then cap1 else ['$', c2]
          | d2 :: t2 =>
            if d2.isDigit then
              if c2 = '0' then
                if d2 = '1' then cap1 ++ getSubstitution matched before after cap1 t2
                else if d2 = '0' then
                  '$' :: '0' :: '0' :: getSubstitution matched before after cap1 t2
                else '$' :: '0' :: getSubstitution matched before after cap1 (d2 :: t2)
              else if c2 = '1' then
                cap1 ++ getSubstitution matched before after cap1 (d2 :: t2)
              else '$' :: c2 :: getSubstitution matched before after cap1 (d2 :: t2)
            else
              if c2 = '1' then cap1 ++ getSubstitution matched before after cap1 (d2 :: t2)
              else '$' :: c2 :: getSubstitution matched before after cap1 (d2 :: t2)
        else '$' :: c2 :: getSubstitution matched before after cap1 t
    else c :: getSubstitution matched before after cap1 rest

/-- `previewRenderSvg` (App.tsx 250–260): empty stays empty; with no
`/<svg([^>]*?)>/` match the base text is returned as is; otherwise
`String.prototype.replace` rebuilds the first matched tag from the template
`<svg` + attributes (with `fill="…"`/`stroke="…"` deleted) + ` fill="` +
previewColor + `">`, expanding the template through `GetSubstitution` (the
match is `<svg` + attributes + `>`, its single capture the attribute
text). -/
def previewRenderSvg (base : String) (previewColor : String) : String :=
  if base = "" then ""
  else
    match findSvgTag base.data with
    | none => base
    | some (before, attrs, after) =>
      let attrs2 := removeFirstQuotedAttr strokePat (removeFirstQuotedAttr fillPat attrs)
      String.mk (before ++
        getSubstitution (svgOpenChars ++ attrs ++ ['>']) before after attrs
          (svgOpenChars ++ attrs2 ++ fillEqChars ++ previewColor.data ++ ['"', '>']) ++
        after)

/-! ## The preview data URL (`svgPreviewUrl`, App.tsx 266–275) -/

/-- UTF-8 encoding of one scalar value, as byte values. -/
def utf8EncodeCharNat (c : Char) : List Nat :=
  let n := c.toNat
  if n < 128 then [n]
  else if n < 2048 then [192 + n / 64, 128 + n % 64]
  else if n < 65536 then [224 + n / 4096, 128 + n / 64 % 64, 128 + n % 64]
  else [240 + n / 262144, 128 + n / 4096 % 64, 128 + n / 64 % 64, 128 + n % 64]

/-- The UTF-8 bytes of a string (the effect of
`unescape(encodeURIComponent(s))` read as byte values). -/
def utf8Bytes (s : String) : List Nat :=
  s.data.foldr (fun c acc => utf8EncodeCharNat c ++ acc) []

/-- The base64 alphabet. -/
def b64Alphabet : List Char :=
  ['A', 'B', 'C', 'D', 'E', 'F', 'G', 'H', 'I', 'J', 'K', 'L', 'M',
   'N', 'O', 'P', 'Q', 'R', 'S', 'T', 'U', 'V', 'W', 'X', 'Y', 'Z',
   'a', 'b', 'c', 'd', 'e', 'f', 'g', 'h', 'i', 'j', 'k', 'l', 'm',
   'n', 'o', 'p', 'q', 'r', 's', 't', 'u', 'v', 'w', 'x', 'y', 'z',
   '0', '1', '2', '3', '4', '5', '6', '7', '8', '9', '+', '/']

/-- The base64 digit for a 6-bit value. -/
def b64Char (n : Nat) : Char := b64Alphabet.getD n 'A'

/-- `btoa`: base64 encoding of a byte sequence, with `=` padding. -/
def b64Encode : List Nat → List Char
  | [] => []
  | [a] => [b64Char (a / 4), b64Char (a % 4 * 16), '=', '=']
  | [a, b] => [b64Char (a / 4), b64Char (a % 4 * 16 + b / 16), b64Char (b % 16 * 4), '=']
  | a :: b :: c :: rest =>
    b64Char (a / 4) :: b64Char (a % 4 * 16 + b / 16) ::
      b64Char (b % 16 * 4 + c / 64) :: b64Char (c % 64) :: b64Encode rest

/-- The 6-bit value of a base64 digit. -/
def b64Val (c : Char) : Option Nat := b64Alphabet.findIdx? (fun d => d == c)

/-- `atob`: base64 decoding back to a byte sequence (groups of four digits,
with `=` padding allowed only at the end). -/
def b64Decode : List Char → Option (List Nat)
  | [] => some []
  | c1 :: c2 :: c3 :: c4 :: rest =>
    match b64Val c1, b64Val c2 with
    | some v1, some v2 =>
      if c3 = '=' then
        if c4 = '=' ∧ rest = [] ∧ v2 % 16 = 0 then some [v1 * 4 + v2 / 16] else none
      else
        match b64Val c3 with
        | some v3 =>
          if c4 = '=' then
            if rest = [] ∧ v3 % 4 = 0 then
              some [v1 * 4 + v2 / 16, v2 % 16 * 16 + v3 / 4]
            else none
          else
            match b64Val c4, b64Decode rest with
            | some v4, some bs =>
              some ((v1 * 4 + v2 / 16) :: (v2 % 16 * 16 + v3 / 4) :: (v3 % 4 * 64 + v4) :: bs)
            | _, _ => none
        | none => none
    | _, _ => none
  | _ => none

/-- The fixed `data:` URL prefix. -/
def dataUrlPrefixChars : List Char :=
  ['d', 'a', 't', 'a', ':', 'i', 'm', 'a', 'g', 'e', '/', 's', 'v', 'g',
   '+', 'x', 'm', 'l', ';', 'b', 'a', 's', 'e', '6', '4', ',']

/-- `svgPreviewUrl` (App.tsx 266–275): empty colorized text gives an empty
URL; otherwise `data:image/svg+xml;base64,` followed by
`btoa(unescape(encodeURIComponent(text)))`.  Lean strings carry no lone
surrogates, so the `catch` branch of the source is unreachable here. -/
def svgPreviewUrl (colorized : String) : String :=
  if colorized = "" then ""
  else String.mk (dataUrlPrefixChars ++ b64Encode (utf8Bytes colorized))

/-! ## Observations on documents (used to state the claims) -/

/-- Does the root element carry an attribute of the given name? -/
def rootHasAttr (name : List Char) : XNode → Bool
  | .text _ => false
  | .element _ attrs _ => attrs.any (fun a => a.name == name)

/-- The value of the named attribute on the root element, if any. -/
def getRootAttr (name : List Char) : XNode → Option (List Char)
  | .text _ => none
  | .element _ attrs _ => (attrs.find? (fun a => a.name == name)).map (fun a => a.value)

/-- Is this node character data? -/
def isTextNode : XNode → Bool
  | .text _ => true
  | .element _ _ _ => false

mutual

/-- Does any element of the tree (root or descendant) carry a `class`
attribute? -/
def hasClassDeep : XNode → Bool
  | .text _ => false
  | .element _ attrs cs => attrs.any (fun a => a.name == classChars) || hasClassDeepList cs

/-- `hasClassDeep` over a sibling list. -/
def hasClassDeepList : List XNode → Bool
  | [] => false
  | n :: rest => hasClassDeep n || hasClassDeepList rest

end

mutual

/-- The `class` attribute value (or `none`) of every element of the tree in
document order. -/
def classAttrs : XNode → List (Option (List Char))
  | .text _ => []
  | .element _ attrs cs =>
    (attrs.find? (fun a => a.name == classChars)).map (fun a => a.value) :: classAttrsList cs

/-- `classAttrs` over a sibling list. -/
def classAttrsList : List XNode → List (Option (List Char))
  | [] => []
  | n :: rest => classAttrs n ++ classAttrsList rest

end

/-! ## Well-formed documents

`wfNode` captures exactly the trees the parser can produce: names are
nonempty runs of name characters, attribute values carry no quote,
character data is nonempty, contains no `'<'`, and two text nodes are
never adjacent.  On such trees serialization is inverted by the parser. -/

/-- Well-formedness of one attribute. -/
def wfAttr (a : XAttr) : Bool :=
  !a.name.isEmpty && a.name.all isNameChar && !a.value.contains '"'

mutual

/-- Well-formedness of a node (see section comment). -/
def wfNode : XNode → Bool
  | .text s => !s.isEmpty && !s.contains '<'
  | .element tag attrs cs =>
    !tag.isEmpty && tag.all isNameChar && attrs.all wfAttr && wfNodes cs

/-- Well-formedness of a sibling list: each node is well-formed and no two
adjacent nodes are both text. -/
def wfNodes : List XNode → Bool
  | [] => true
  | [n] => wfNode n
  | n :: m :: rest => wfNode n && !(isTextNode n && isTextNode m) && wfNodes (m :: rest)

end

mutual

/-- Fuel bound for `parseElement`: one more than the nesting structure. -/
def fuelForNode : XNode → Nat
  | .text _ => 1
  | .element _ _ cs => 1 + fuelForNodes cs

/-- Fuel bound for `parseNodes`. -/
def fuelForNodes : List XNode → Nat
  | [] => 1
  | n :: rest => 1 + max (fuelForNode n) (fuelForNodes rest)

end

/-! ## Claim C7: whitespace-only input gives empty output -/

/-- C7: for every input text that is empty or consists only of whitespace,
and for every options record, the transform returns the empty string (the
fast path before any parse attempt). -/
theorem optimizeSvgBase_whitespace_empty (s : String) (o : BaseOptions)
    (hws : s.data.all isJsWhitespace = true) :
    optimizeSvgBase s o = "" := by
  unfold optimizeSvgBase
  rw [if_pos hws]

/-- C7 witness: an input of tab, newline, em space (U+2003), ideographic
space (U+3000) and space, with all flags on, maps to `""`. -/
theorem optimizeSvgBase_whitespace_empty_witness :
    optimizeSvgBase " \t\n 　 " ⟨true, true, true, true⟩ = "" :=
  optimizeSvgBase_whitespace_empty " \t\n 　 " ⟨true, true, true, true⟩ (by rfl)

/-! ## Claim C8: size-list parsing -/

/-- C8: `parsedSizes` splits on commas, trims, parses with `parseInt`, and
keeps only strictly positive values, preserving order and duplicates:
the spec's three examples, plus an order/duplicate-preservation example. -/
theorem parsedSizes_spec_examples :
    parsedSizes "16, 24, 32" = [16, 24, 32] ∧
    parsedSizes "0, -5, abc, 10" = [10] ∧
    parsedSizes "" = [] ∧
    parsedSizes "24, 16, 24" = [24, 16, 24] := by
  refine ⟨?_, ?_, ?_, ?_⟩ <;> rfl

/-! ## Claim C3: base text without a root opening tag -/

/-- C3 counterexample: `"<div/>"` is a reachable nonempty base transformed
text (the transformer echoes it) with no `/<svg([^>]*?)>/` match, yet the
colorized text is the base text itself, not the empty string claimed. -/
theorem previewRenderSvg_no_match_counterexample :
    optimizeSvgBase "<div/>" ⟨true, true, true, false⟩ = "<div/>" ∧
    ("<div/>" : String) ≠ "" ∧
    findSvgTag "<div/>".data = none ∧
    previewRenderSvg "<div/>" "#3b82f6" = "<div/>" ∧
    previewRenderSvg "<div/>" "#3b82f6" ≠ "" := by
  refine ⟨by rfl, by decide, by rfl, by rfl, by decide⟩

/-- C3 amended: for every non-empty base transformed text with no
recognizable root opening tag, the colorized text equals the base text
unchanged (App.tsx line 254 returns `baseOptimizedSvg`, not `''`). -/
theorem previewRenderSvg_no_match_echoes_base (base previewColor : String)
    (hne : base ≠ "") (hnm : findSvgTag base.data = none) :
    previewRenderSvg base previewColor = base := by
  unfold previewRenderSvg
  rw [if_neg hne, hnm]

/-- C3 amended witness: the concrete base text `"<div/>"`. -/
theorem previewRenderSvg_no_match_echoes_base_witness :
    previewRenderSvg "<div/>" "#3b82f6" = "<div/>" :=
  previewRenderSvg_no_match_echoes_base "<div/>" "#3b82f6" (by decide) (by rfl)

/-! ## Claim C1: invalid input is echoed unchanged -/

/-- C1: for every input that is non-empty after trimming and every options
record, if the parse fails or the parsed root tag is not `svg`
case-insensitively, the transform returns the original input unchanged.
(The model is a total function, so no exception can reach the caller.) -/
theorem optimizeSvgBase_invalid_is_identity (s : String) (o : BaseOptions)
    (hws : s.data.all isJsWhitespace = false)
    (hinv : parseXml s = none ∨
      ∃ root, parseXml s = some root ∧ rootTagLower root ≠ svgChars) :
    optimizeSvgBase s o = s := by
  unfold optimizeSvgBase
  rw [hws]
  rcases hinv with h | ⟨root, hp, hroot⟩
  · rw [h]
    simp
  · rw [hp]
    simp only [if_pos hroot]
    simp

/-- C1 witness: `"hello"` (a parse failure) and `"<div/>"` (a wrong root
tag) are both echoed. -/
theorem optimizeSvgBase_invalid_is_identity_witness :
    optimizeSvgBase "hello" ⟨true, true, true, true⟩ = "hello" ∧
    optimizeSvgBase "<div/>" ⟨true, true, true, true⟩ = "<div/>" :=
  ⟨optimizeSvgBase_invalid_is_identity "hello" ⟨true, true, true, true⟩ (by rfl)
      (Or.inl (by rfl)),
   optimizeSvgBase_invalid_is_identity "<div/>" ⟨true, true, true, true⟩ (by rfl)
      (Or.inr ⟨XNode.element ['d', 'i', 'v'] [] [], by rfl, by decide⟩)⟩

/-! ## Helper lemmas on takeWhile / dropWhile -/

/-- `takeWhile`/`dropWhile` on an append whose left part satisfies the
predicate and whose right part starts with a failing character. -/
theorem takeWhile_dropWhile_append {α : Type} (p : α → Bool) (xs ys : List α)
    (hx : ∀ c ∈ xs, p c = true)
    (hy : ∀ c r, ys = c :: r → p c = false) :
    (xs ++ ys).takeWhile p = xs ∧ (xs ++ ys).dropWhile p = ys := by
  induction xs with
  | nil =>
    simp only [List.nil_append]
    cases ys with
    | nil => simp
    | cons c r =>
      simp [List.takeWhile_cons, List.dropWhile_cons, hy c r rfl]
  | cons x xs ih =>
    have hpx : p x = true := hx x (by simp)
    have ih2 := ih (fun c hc => hx c (by simp [hc]))
    simp [List.takeWhile_cons, List.dropWhile_cons, hpx, ih2.1, ih2.2]

/-- `dropWhile` is the identity when no member satisfies the predicate. -/
theorem dropWhile_eq_self_of_none {α : Type} {p : α → Bool} {l : List α}
    (h : ∀ c ∈ l, p c = false) : l.dropWhile p = l := by
  cases l with
  | nil => rfl
  | cons c r => simp [List.dropWhile_cons, h c (by simp)]

/-- `jsTrim` is the identity on lists without whitespace. -/
theorem jsTrim_eq_self {l : List Char}
    (h : ∀ c ∈ l, isJsWhitespace c = false) : jsTrim l = l := by
  unfold jsTrim
  rw [dropWhile_eq_self_of_none h,
      dropWhile_eq_self_of_none (fun c hc => h c (List.mem_reverse.mp hc)),
      List.reverse_reverse]

/-- `splitOnComma` yields a single token when there is no comma. -/
theorem splitOnComma_no_comma {l : List Char}
    (h : ∀ c ∈ l, c ≠ ',') : splitOnComma l = [l] := by
  induction l with
  | nil => rfl
  | cons c r ih =>
    have hr := ih (fun d hd => h d (by simp [hd]))
    simp only [splitOnComma, if_neg (h c (by simp)), hr]

/-! ## Digit character facts -/

/-- A digit character is not JavaScript whitespace. -/
theorem isDigit_not_jsWhitespace {c : Char} (h : c.isDigit = true) :
    isJsWhitespace c = false := by
  simp only [Char.isDigit, ge_iff_le, Bool.and_eq_true, decide_eq_true_eq] at h
  obtain ⟨h1, h2⟩ := h
  have h1A : (48 : UInt32).toNat ≤ c.val.toNat := by
    rw [UInt32.le_def] at h1
    exact h1
  have h2A : c.val.toNat ≤ (57 : UInt32).toNat := by
    rw [UInt32.le_def] at h2
    exact h2
  have e48 : (48 : UInt32).toNat = 48 := rfl
  have e57 : (57 : UInt32).toNat = 57 := rfl
  rw [e48] at h1A
  rw [e57] at h2A
  have hc : c.toNat = c.val.toNat := rfl
  simp only [isJsWhitespace, hc, Bool.or_eq_false_iff, Bool.and_eq_false_iff,
    decide_eq_false_iff_not]
  omega

/-- A digit character is not a comma. -/
theorem isDigit_ne_comma {c : Char} (h : c.isDigit = true) : c ≠ ',' :=
  fun he => absurd (he ▸ h) (by decide)

/-- A digit character is not a minus sign. -/
theorem isDigit_ne_minus {c : Char} (h : c.isDigit = true) : c ≠ '-' :=
  fun he => absurd (he ▸ h) (by decide)

/-- A digit character is not a plus sign. -/
theorem isDigit_ne_plus {c : Char} (h : c.isDigit = true) : c ≠ '+' :=
  fun he => absurd (he ▸ h) (by decide)

/-! ## Float64 rounding facts -/

/-- `log2Fuel` computes `Nat.log2` when given enough fuel. -/
theorem log2Fuel_eq_log2 : ∀ fuel n, n ≤ fuel → log2Fuel fuel n = Nat.log2 n := by
  intro fuel
  induction fuel with
  | zero =>
    intro n hn
    have h0 : n = 0 := by omega
    subst h0
    rw [Nat.log2, if_neg (by omega)]
    rfl
  | succ f ih =>
    intro n hn
    rw [log2Fuel, Nat.log2]
    by_cases h2 : 2 ≤ n
    · rw [if_pos h2, if_pos h2, ih (n / 2) (by omega)]
    · rw [if_neg h2, if_neg h2]

/-- `natLog2` is `Nat.log2`. -/
theorem natLog2_eq_log2 (n : Nat) : natLog2 n = Nat.log2 n :=
  log2Fuel_eq_log2 n n (Nat.le_refl n)

/-- `2 ^ natLog2 n` is below every positive `n`. -/
theorem pow_natLog2_le {n : Nat} (h : 0 < n) : 2 ^ natLog2 n ≤ n := by
  rw [natLog2_eq_log2]
  exact Nat.log2_self_le (by omega)

/-- Below `2^53` every natural number is float64-exact. -/
theorem toFloat64Nat_eq_of_lt {n : Nat} (h : n < 2 ^ 53) : toFloat64Nat n = n := by
  unfold toFloat64Nat
  rw [if_pos h]

/-- Float64 rounding keeps positive numbers positive. -/
theorem toFloat64Nat_pos {n : Nat} (h : 0 < n) : 0 < toFloat64Nat n := by
  unfold toFloat64Nat
  split
  · exact h
  · rename_i hn
    dsimp only
    have hq : 0 < n / 2 ^ (natLog2 n - 52) := by
      apply Nat.div_pos _ (Nat.pos_pow_of_pos _ (by norm_num))
      calc 2 ^ (natLog2 n - 52) ≤ 2 ^ natLog2 n :=
            Nat.pow_le_pow_right (by norm_num) (Nat.sub_le _ _)
        _ ≤ n := pow_natLog2_le h
    split
    · exact Nat.mul_pos (Nat.succ_pos _) (Nat.pos_pow_of_pos _ (by norm_num))
    · exact Nat.mul_pos hq (Nat.pos_pow_of_pos _ (by norm_num))

/-! ## Trimming a token that starts with digits -/

/-- Trimming a token that starts with a digit run only right-trims the
tail. -/
theorem jsTrim_digits_append (ds rest : List Char)
    (hds : ∀ c ∈ ds, c.isDigit = true) (hd0 : ∃ d0 t, ds = d0 :: t) :
    jsTrim (ds ++ rest) = ds ++ (rest.reverse.dropWhile isJsWhitespace).reverse := by
  obtain ⟨d0, t, rfl⟩ := hd0
  unfold jsTrim
  have h1 : ((d0 :: t) ++ rest).dropWhile isJsWhitespace = (d0 :: t) ++ rest := by
    simp [List.dropWhile_cons, isDigit_not_jsWhitespace (hds d0 (by simp))]
  rw [h1, List.reverse_append, List.dropWhile_append]
  have hrev : ∀ c ∈ (d0 :: t).reverse, isJsWhitespace c = false := fun c hc =>
    isDigit_not_jsWhitespace (hds c (List.mem_reverse.mp hc))
  cases hX : (rest.reverse.dropWhile isJsWhitespace).isEmpty with
  | true =>
    simp only [hX, if_true]
    rw [dropWhile_eq_self_of_none hrev, List.reverse_reverse, List.isEmpty_iff.mp hX]
    simp
  | false =>
    simp only [hX, Bool.false_eq_true, if_false]
    rw [List.reverse_append, List.reverse_reverse]

/-- Right-trimming preserves an empty-or-non-digit head. -/
theorem rtrim_head_of_head (rest : List Char)
    (hhead : rest = [] ∨ ∃ c r, rest = c :: r ∧ c.isDigit = false) :
    ∀ c r, (rest.reverse.dropWhile isJsWhitespace).reverse = c :: r →
      c.isDigit = false := by
  intro c r hr
  have hpre : (rest.reverse.dropWhile isJsWhitespace).reverse <+: rest := by
    have hsuf : rest.reverse.dropWhile isJsWhitespace <:+ rest.reverse :=
      List.dropWhile_suffix _
    have h2 := List.reverse_prefix.mpr hsuf
    rwa [List.reverse_reverse] at h2
  rcases hhead with h0 | ⟨c2, r2, h2, hc2⟩
  · subst h0
    simp at hr
  · subst h2
    obtain ⟨tl, htl⟩ := hpre
    rw [hr] at htl
    simp only [List.cons_append] at htl
    injection htl with he hrest2
    rw [he]
    exact hc2

/-! ## Claim C10: tokens that merely begin with digits are kept -/

/-- C10 counterexample: the token `9007199254740993` (one above `2^53`)
begins with a positive decimal integer, but JavaScript numbers are IEEE-754
binary64, so `parseInt` rounds it (ties to even) to `9007199254740992`:
the parsed sequence holds the rounded value, not the token's exact leading
integer. -/
theorem parsedSizes_float64_counterexample :
    parsedSizes "9007199254740993" = [(9007199254740992 : Int)] ∧
    digitsToNat "9007199254740993".data = 9007199254740993 ∧
    (9007199254740992 : Int) ≠ (9007199254740993 : Int) := by
  refine ⟨by decide, by decide, by decide⟩

/-- C10 amended: JavaScript `parseInt` truncation with float64 rounding: a
token made of a nonempty digit run followed by a tail that starts with a
non-digit and contains no comma parses to the digit run's value rounded to
the nearest binary64, and (when that value is positive and below the
overflow-to-Infinity range, which the model does not cover) the token
contributes exactly that rounded value to the parsed size sequence —
exactly the digit run's own value whenever it is below `2^53`. -/
theorem parsedSizes_keeps_leading_integer (ds rest : List Char)
    (hne : ds ≠ []) (hds : ∀ c ∈ ds, c.isDigit = true)
    (hpos : 0 < digitsToNat ds)
    (hbound : digitsToNat ds < 2 ^ 1024 - 2 ^ 971)
    (hrest : ∀ c ∈ rest, c ≠ ',')
    (hhead : rest = [] ∨ ∃ c r, rest = c :: r ∧ c.isDigit = false) :
    parseIntJs (ds ++ rest) = some ((toFloat64Nat (digitsToNat ds) : Nat) : Int) ∧
    parsedSizes (String.mk (ds ++ rest)) =
      [((toFloat64Nat (digitsToNat ds) : Nat) : Int)] ∧
    (digitsToNat ds < 2 ^ 53 →
      parsedSizes (String.mk (ds ++ rest)) = [((digitsToNat ds : Nat) : Int)]) := by
  obtain ⟨d0, ds', rfl⟩ : ∃ d0 ds', ds = d0 :: ds' := by
    cases ds with
    | nil => exact absurd rfl hne
    | cons d0 ds' => exact ⟨d0, ds', rfl⟩
  have hd0 : d0.isDigit = true := hds d0 (by simp)
  have hheadfail : ∀ c r, rest = c :: r → Char.isDigit c = false := by
    intro c r hr
    rcases hhead with h | ⟨c2, r2, hr2, hc2⟩
    · rw [h] at hr; cases hr
    · rw [hr2] at hr
      injection hr with h1 h2
      subst h1
      exact hc2
  have hparse : ∀ B : List Char, (∀ c r, B = c :: r → Char.isDigit c = false) →
      parseIntJs ((d0 :: ds') ++ B) =
        some ((toFloat64Nat (digitsToNat (d0 :: ds')) : Nat) : Int) := by
    intro B hB
    unfold parseIntJs
    have hdw : ((d0 :: ds') ++ B).dropWhile isJsWhitespace = (d0 :: ds') ++ B := by
      simp [List.dropWhile_cons, isDigit_not_jsWhitespace hd0]
    rw [hdw]
    simp only [List.cons_append]
    rw [if_neg (isDigit_ne_minus hd0), if_neg (isDigit_ne_plus hd0)]
    have htw := takeWhile_dropWhile_append Char.isDigit (d0 :: ds') B hds hB
    unfold parseDigits
    simp only [← List.cons_append, htw.1]
    simp
  have hmain : parsedSizes (String.mk ((d0 :: ds') ++ rest)) =
      [((toFloat64Nat (digitsToNat (d0 :: ds')) : Nat) : Int)] := by
    unfold parsedSizes
    have hdata : (String.mk ((d0 :: ds') ++ rest)).data = (d0 :: ds') ++ rest := rfl
    rw [hdata]
    have hsplit : splitOnComma ((d0 :: ds') ++ rest) = [(d0 :: ds') ++ rest] := by
      apply splitOnComma_no_comma
      intro c hc
      rcases List.mem_append.mp hc with hc | hc
      · exact isDigit_ne_comma (hds c hc)
      · exact hrest c hc
    rw [hsplit]
    have htrim : jsTrim ((d0 :: ds') ++ rest) =
        (d0 :: ds') ++ (rest.reverse.dropWhile isJsWhitespace).reverse :=
      jsTrim_digits_append (d0 :: ds') rest hds ⟨d0, ds', rfl⟩
    simp only [List.map_cons, List.map_nil, htrim]
    rw [hparse _ (rtrim_head_of_head rest hhead)]
    have hvpos : (0 : Int) < ((toFloat64Nat (digitsToNat (d0 :: ds')) : Nat) : Int) := by
      exact_mod_cast toFloat64Nat_pos hpos
    simp [List.filterMap_cons, hvpos]
  refine ⟨hparse rest hheadfail, hmain, ?_⟩
  intro hlt
  rw [hmain, toFloat64Nat_eq_of_lt hlt]

set_option maxRecDepth 8192 in
/-- C10 amended witness: the token `16 px` — digits, a space, letters —
parses to 16 and yields `[16]`. -/
theorem parsedSizes_keeps_leading_integer_witness :
    parseIntJs (['1', '6'] ++ [' ', 'p', 'x']) = some (16 : Int) ∧
    parsedSizes (String.mk (['1', '6'] ++ [' ', 'p', 'x'])) = [(16 : Int)] := by
  have h := parsedSizes_keeps_leading_integer ['1', '6'] [' ', 'p', 'x']
    (by decide) (by decide) (by decide) (by decide) (by decide)
    (Or.inr ⟨' ', ['p', 'x'], rfl, by decide⟩)
  exact ⟨by rw [h.1]; rfl, by rw [h.2.2 (by decide)]; rfl⟩

/-! ## Base64 facts -/

/-- Decoding a base64 digit recovers the 6-bit value, for all 64 values. -/
theorem b64Val_b64Char : ∀ n, n < 64 → b64Val (b64Char n) = some n := by decide

/-- No base64 digit is the padding character. -/
theorem b64Char_ne_eq : ∀ n, n < 64 → b64Char n ≠ '=' := by decide

/-- Base64 round trip: decoding the encoding of any byte sequence returns
the sequence. -/
theorem b64Decode_b64Encode (bs : List Nat) (h : ∀ b ∈ bs, b < 256) :
    b64Decode (b64Encode bs) = some bs := by
  induction bs using b64Encode.induct with
  | case1 => rfl
  | case2 a =>
    have ha : a < 256 := h a (by simp)
    have h1 : a / 4 < 64 := by omega
    have h2 : a % 4 * 16 < 64 := by omega
    simp only [b64Encode, b64Decode, b64Val_b64Char _ h1, b64Val_b64Char _ h2]
    rw [if_pos trivial]
    rw [if_pos (show True ∧ True ∧ a % 4 * 16 % 16 = 0 from ⟨trivial, trivial, by omega⟩)]
    have : a / 4 * 4 + a % 4 * 16 / 16 = a := by omega
    rw [this]
  | case3 a b =>
    have ha : a < 256 := h a (by simp)
    have hb : b < 256 := h b (by simp)
    have h1 : a / 4 < 64 := by omega
    have h2 : a % 4 * 16 + b / 16 < 64 := by omega
    have h3 : b % 16 * 4 < 64 := by omega
    simp only [b64Encode, b64Decode, b64Val_b64Char _ h1, b64Val_b64Char _ h2,
      b64Val_b64Char _ h3]
    rw [if_neg (b64Char_ne_eq _ h3), if_pos trivial,
      if_pos (show True ∧ b % 16 * 4 % 4 = 0 from ⟨trivial, by omega⟩)]
    have e1 : a / 4 * 4 + (a % 4 * 16 + b / 16) / 16 = a := by omega
    have e2 : (a % 4 * 16 + b / 16) % 16 * 16 + b % 16 * 4 / 4 = b := by omega
    rw [e1, e2]
  | case4 a b c rest ih =>
    have ha : a < 256 := h a (by simp)
    have hb : b < 256 := h b (by simp)
    have hc : c < 256 := h c (by simp)
    have h1 : a / 4 < 64 := by omega
    have h2 : a % 4 * 16 + b / 16 < 64 := by omega
    have h3 : b % 16 * 4 + c / 64 < 64 := by omega
    have h4 : c % 64 < 64 := by omega
    have ihr := ih (fun x hx => h x (by simp [hx]))
    simp only [b64Encode, b64Decode, b64Val_b64Char _ h1, b64Val_b64Char _ h2,
      b64Val_b64Char _ h3, b64Val_b64Char _ h4, ihr]
    rw [if_neg (b64Char_ne_eq _ h3), if_neg (b64Char_ne_eq _ h4)]
    have e1 : a / 4 * 4 + (a % 4 * 16 + b / 16) / 16 = a := by omega
    have e2 : (a % 4 * 16 + b / 16) % 16 * 16 + (b % 16 * 4 + c / 64) / 4 = b := by omega
    have e3 : (b % 16 * 4 + c / 64) % 4 * 64 + c % 64 = c := by omega
    rw [e1, e2, e3]

/-- Every UTF-8 byte produced by the encoder is below 256. -/
theorem utf8Bytes_lt_256 (s : String) : ∀ b ∈ utf8Bytes s, b < 256 := by
  have hchar : ∀ (c : Char), ∀ b ∈ utf8EncodeCharNat c, b < 256 := by
    intro c b hb
    have hval : c.toNat < 1114112 := by
      have h := c.valid
      rcases h with h | ⟨h1, h2⟩
      · have : c.toNat < 55296 := h
        omega
      · have : c.toNat < 1114112 := h2
        omega
    unfold utf8EncodeCharNat at hb
    rcases Nat.lt_or_ge c.toNat 128 with h1 | h1
    · rw [if_pos h1] at hb
      simp at hb
      omega
    · rw [if_neg (by omega)] at hb
      rcases Nat.lt_or_ge c.toNat 2048 with h2 | h2
      · rw [if_pos h2] at hb
        simp at hb
        rcases hb with hb | hb <;> omega
      · rw [if_neg (by omega)] at hb
        rcases Nat.lt_or_ge c.toNat 65536 with h3 | h3
        · rw [if_pos h3] at hb
          simp at hb
          rcases hb with hb | hb | hb <;> omega
        · rw [if_neg (by omega)] at hb
          simp at hb
          rcases hb with hb | hb | hb | hb <;> omega
  have hlist : ∀ (l : List Char) (b : Nat),
      b ∈ l.foldr (fun c acc => utf8EncodeCharNat c ++ acc) [] → b < 256 := by
    intro l
    induction l with
    | nil => intro b hb; simp at hb
    | cons c cs ih =>
      intro b hb
      simp only [List.foldr_cons] at hb
      rcases List.mem_append.mp hb with hb2 | hb2
      · exact hchar c b hb2
      · exact ih b hb2
  intro b hb
  exact hlist s.data b hb

/-! ## Claim C9: the preview data URL -/

/-- C9: `svgPreviewUrl` is total; the empty colorized text yields the empty
URL, and a non-empty one yields the `data:image/svg+xml;base64,` URL whose
base64 payload decodes back to exactly the UTF-8 bytes of the colorized
text. -/
theorem svgPreviewUrl_total_spec (colorized : String) :
    (colorized = "" → svgPreviewUrl colorized = "") ∧
    (colorized ≠ "" →
      svgPreviewUrl colorized =
        String.mk (dataUrlPrefixChars ++ b64Encode (utf8Bytes colorized)) ∧
      b64Decode (b64Encode (utf8Bytes colorized)) = some (utf8Bytes colorized)) := by
  constructor
  · intro h
    unfold svgPreviewUrl
    rw [if_pos h]
  · intro h
    refine ⟨?_, b64Decode_b64Encode _ (utf8Bytes_lt_256 colorized)⟩
    unfold svgPreviewUrl
    rw [if_neg h]

/-- C9 witness: the empty text and the concrete text `<svg/>` (whose URL is
`data:image/svg+xml;base64,PHN2Zy8+`). -/
theorem svgPreviewUrl_total_spec_witness :
    svgPreviewUrl "" = "" ∧
    svgPreviewUrl "<svg/>" =
      String.mk (dataUrlPrefixChars ++ b64Encode (utf8Bytes "<svg/>")) ∧
    b64Decode (b64Encode (utf8Bytes "<svg/>")) = some (utf8Bytes "<svg/>") :=
  ⟨(svgPreviewUrl_total_spec "").1 rfl, (svgPreviewUrl_total_spec "<svg/>").2 (by decide)⟩

/-! ## Soundness of the first-match search -/

/-- `scanToGt` soundness: it splits off everything before the first `'>'`. -/
theorem scanToGt_sound (l a r : List Char) (h : scanToGt l = some (a, r)) :
    l = a ++ '>' :: r ∧ '>' ∉ a := by
  induction l using scanToGt.induct generalizing a r with
  | case1 => simp [scanToGt] at h
  | case2 r2 =>
    simp [scanToGt] at h
    obtain ⟨ha, hr⟩ := h
    subst ha; subst hr
    simp
  | case3 c r2 hne ih =>
    simp only [scanToGt, Option.map_eq_some'] at h
    obtain ⟨⟨a2, r3⟩, hp, he⟩ := h
    obtain ⟨hd, ht⟩ := ih a2 r3 hp
    cases he
    refine ⟨by simp [hd], ?_⟩
    simp only [List.mem_cons, not_or]
    exact ⟨fun hc => hne hc.symm, ht⟩

/-- `findSvgTag` soundness: a match decomposes the text as
`before ++ "<svg" ++ attrs ++ ">" ++ after` with no `'>'` inside `attrs`. -/
theorem findSvgTag_sound (l before attrs after : List Char)
    (h : findSvgTag l = some (before, attrs, after)) :
    l = before ++ svgOpenChars ++ attrs ++ '>' :: after ∧ '>' ∉ attrs := by
  induction l generalizing before attrs after with
  | nil => simp [findSvgTag] at h
  | cons c r ih =>
    rw [findSvgTag] at h
    by_cases hp : svgOpenChars.isPrefixOf (c :: r) = true
    · rw [if_pos hp] at h
      have hdec : c :: r = svgOpenChars ++ (c :: r).drop 4 := by
        obtain ⟨t, ht⟩ := List.isPrefixOf_iff_prefix.mp hp
        rw [← ht]
        simp [svgOpenChars]
      cases hs : scanToGt ((c :: r).drop 4) with
      | none => rw [hs] at h; cases h
      | some p =>
        obtain ⟨a2, r2⟩ := p
        rw [hs] at h
        simp only [Option.some.injEq, Prod.mk.injEq] at h
        obtain ⟨h1, h2, h3⟩ := h
        subst h1; subst h2; subst h3
        obtain ⟨hd, hn⟩ := scanToGt_sound _ a2 r2 hs
        rw [hd] at hdec
        exact ⟨by simpa using hdec, hn⟩
    · rw [if_neg hp] at h
      simp only [Option.map_eq_some'] at h
      obtain ⟨⟨b2, a2, r2⟩, hm2, he⟩ := h
      obtain ⟨hd, hn⟩ := ih b2 a2 r2 hm2
      cases he
      exact ⟨by simp [hd], hn⟩

/-! ## Replacement-template facts -/

/-- A replacement template without a dollar sign is expanded verbatim. -/
theorem getSubstitution_of_no_dollar (matched before after cap1 : List Char)
    {repl : List Char} (h : '$' ∉ repl) :
    getSubstitution matched before after cap1 repl = repl := by
  induction repl with
  | nil => rfl
  | cons c rest ih =>
    have hc : c ≠ '$' := fun hc => h (hc ▸ List.mem_cons_self c rest)
    rw [getSubstitution.eq_def]
    simp only [if_neg hc]
    rw [ih (fun hm => h (List.mem_cons_of_mem c hm))]

/-- `dropQuoted` returns a suffix: its members come from the input. -/
theorem mem_dropQuoted {l r : List Char} (h : dropQuoted l = some r) :
    ∀ x ∈ r, x ∈ l := by
  induction l using dropQuoted.induct with
  | case1 => cases h
  | case2 t =>
    simp only [dropQuoted, Option.some.injEq] at h
    subst h
    intro x hx
    exact List.mem_cons_of_mem _ hx
  | case3 c t hne ih =>
    rw [dropQuoted] at h
    · intro x hx
      exact List.mem_cons_of_mem _ (ih h x hx)
    · exact hne

/-- `removeFirstQuotedAttr` only deletes: its members come from the
input. -/
theorem mem_removeFirstQuotedAttr {pat l : List Char} {x : Char}
    (h : x ∈ removeFirstQuotedAttr pat l) : x ∈ l := by
  induction l with
  | nil => cases h
  | cons c r ih =>
    rw [removeFirstQuotedAttr] at h
    by_cases hp : pat.isPrefixOf (c :: r) = true
    · rw [if_pos hp] at h
      cases hq : dropQuoted ((c :: r).drop pat.length) with
      | none => rw [hq] at h; exact h
      | some rest =>
        rw [hq] at h
        exact List.mem_of_mem_drop (mem_dropQuoted hq x h)
    · rw [if_neg hp] at h
      rcases List.mem_cons.mp h with h | h
      · simp [h]
      · exact List.mem_cons_of_mem _ (ih h)

/-! ## Claim C4: colorization touches only the first root-opening-tag -/

/-- C4 counterexample: `String.prototype.replace` expands `$`-escapes in
the replacement template (ECMAScript GetSubstitution), so on the reachable
base `<svg/>` with previewColor `$&` the rebuilt tag embeds the whole
matched text where the claim's verbatim rebuild would keep the literal
`$&`. -/
theorem previewRenderSvg_dollar_counterexample :
    findSvgTag "<svg/>".data = some ([], ['/'], []) ∧
    previewRenderSvg "<svg/>" "$&" = "<svg/ fill=\"<svg/>\">" ∧
    previewRenderSvg "<svg/>" "$&" ≠ "<svg/ fill=\"$&\">" := by
  refine ⟨by rfl, by rfl, by decide⟩

/-- C4 amended: when the base text contains a root-opening-tag match, the
text decomposes as `before ++ "<svg" ++ attrs ++ ">" ++ after`, and the
colorized text keeps `before` and `after` verbatim (so no other element's
attributes change), splicing in the replacement template — `<svg`, the
attribute text with `fill="…"`/`stroke="…"` deleted, and
` fill="<previewColor>"` — expanded by GetSubstitution against the match;
when neither the attribute text nor the preview color contains `$`, that
expansion is the verbatim rebuild. -/
theorem previewRenderSvg_targets_first_root_tag (base previewColor : String)
    (before attrs after : List Char)
    (hm : findSvgTag base.data = some (before, attrs, after)) :
    base.data = before ++ svgOpenChars ++ attrs ++ '>' :: after ∧
    '>' ∉ attrs ∧
    previewRenderSvg base previewColor =
      String.mk (before ++
        getSubstitution (svgOpenChars ++ attrs ++ ['>']) before after attrs
          (svgOpenChars ++
            removeFirstQuotedAttr strokePat (removeFirstQuotedAttr fillPat attrs) ++
            fillEqChars ++ previewColor.data ++ ['"', '>']) ++ after) ∧
    ('$' ∉ attrs → '$' ∉ previewColor.data →
      previewRenderSvg base previewColor =
        String.mk (before ++ svgOpenChars ++
          removeFirstQuotedAttr strokePat (removeFirstQuotedAttr fillPat attrs) ++
          fillEqChars ++ previewColor.data ++ '"' :: '>' :: after)) := by
  obtain ⟨hd, hn⟩ := findSvgTag_sound base.data before attrs after hm
  have hne : base ≠ "" := by
    intro h
    rw [h] at hm
    cases hm
  have heq : previewRenderSvg base previewColor =
      String.mk (before ++
        getSubstitution (svgOpenChars ++ attrs ++ ['>']) before after attrs
          (svgOpenChars ++
            removeFirstQuotedAttr strokePat (removeFirstQuotedAttr fillPat attrs) ++
            fillEqChars ++ previewColor.data ++ ['"', '>']) ++ after) := by
    unfold previewRenderSvg
    rw [if_neg hne, hm]
  refine ⟨hd, hn, heq, ?_⟩
  intro hda hdc
  rw [heq]
  have hno : '$' ∉ (svgOpenChars ++
      removeFirstQuotedAttr strokePat (removeFirstQuotedAttr fillPat attrs) ++
      fillEqChars ++ previewColor.data ++ ['"', '>']) := by
    intro hmem
    rcases List.mem_append.mp hmem with hmem | hmem
    · rcases List.mem_append.mp hmem with hmem | hmem
      · rcases List.mem_append.mp hmem with hmem | hmem
        · rcases List.mem_append.mp hmem with hmem | hmem
          · exact absurd hmem (by decide)
          · exact hda (mem_removeFirstQuotedAttr (mem_removeFirstQuotedAttr hmem))
        · exact absurd hmem (by decide)
      · exact hdc hmem
    · exact absurd hmem (by decide)
  rw [getSubstitution_of_no_dollar _ _ _ _ hno]
  congr 1
  simp [List.append_assoc]

/-- C4 amended witness: on multi-element markup whose `path` child also has
a `fill` (and no `$` anywhere), only the root tag changes; the child's
`fill="blue"` survives. -/
theorem previewRenderSvg_targets_first_root_tag_witness :
    previewRenderSvg "<svg fill=\"red\"><path fill=\"blue\"/></svg>" "#fff" =
      "<svg  fill=\"#fff\"><path fill=\"blue\"/></svg>" := by
  have h := previewRenderSvg_targets_first_root_tag
    "<svg fill=\"red\"><path fill=\"blue\"/></svg>" "#fff"
    []
    [' ', 'f', 'i', 'l', 'l', '=', '"', 'r', 'e', 'd', '"']
    ['<', 'p', 'a', 't', 'h', ' ', 'f', 'i', 'l', 'l', '=', '"', 'b', 'l',
     'u', 'e', '"', '/', '>', '<', '/', 's', 'v', 'g', '>']
    (by rfl)
  rw [h.2.2.2 (by decide) (by decide)]
  rfl

/-! ## Attribute-removal lemmas -/

/-- After `removeAttr name`, no attribute with that name remains. -/
theorem any_removeAttr_self (name : List Char) (attrs : List XAttr) :
    (removeAttr name attrs).any (fun a => a.name == name) = false := by
  have hpt : ∀ a : XAttr, ((a.name != name) && (a.name == name)) = false := by
    intro a
    cases h : (a.name == name) <;> simp [bne, h]
  simp [removeAttr, List.any_filter, hpt]

/-- Removing an attribute of a different name does not change whether the
given name is present. -/
theorem any_removeAttr_other (name m : List Char) (attrs : List XAttr) (h : name ≠ m) :
    (removeAttr m attrs).any (fun a => a.name == name) =
      attrs.any (fun a => a.name == name) := by
  have hpt : ∀ a : XAttr, ((a.name != m) && (a.name == name)) = (a.name == name) := by
    intro a
    cases hn : (a.name == name) with
    | false => simp [hn]
    | true =>
      have he : a.name = name := by
        have : (a.name == name) = true := hn
        exact eq_of_beq this
      have hne2 : a.name ≠ m := by rw [he]; exact h
      simp [hn, bne_iff_ne, hne2]
  simp [removeAttr, List.any_filter, hpt]

/-- An absent attribute name stays absent through any `removeAttr`. -/
theorem any_removeAttr_false (name m : List Char) (attrs : List XAttr)
    (h : attrs.any (fun a => a.name == name) = false) :
    (removeAttr m attrs).any (fun a => a.name == name) = false := by
  rw [List.any_eq_false] at h
  have hall : attrs.any (fun a => (a.name != m) && (a.name == name)) = false := by
    rw [List.any_eq_false]
    intro a ha
    simp [h a ha]
  simp [removeAttr, List.any_filter, hall]

/-- Removing an attribute of a different name does not change the `find?`
result for the given name. -/
theorem find_removeAttr_other (name m : List Char) (attrs : List XAttr) (h : name ≠ m) :
    (removeAttr m attrs).find? (fun a => a.name == name) =
      attrs.find? (fun a => a.name == name) := by
  induction attrs with
  | nil => rfl
  | cons a rest ih =>
    by_cases hm : a.name = m
    · have hname : (a.name == name) = false := by
        rw [hm]
        exact beq_eq_false_iff_ne.mpr (fun e => h e.symm)
      have hstep : removeAttr m (a :: rest) = removeAttr m rest := by
        simp [removeAttr, List.filter_cons, bne, hm]
      rw [hstep, ih, List.find?_cons, hname]
    · have hbm : (a.name != m) = true := by simp [bne_iff_ne, hm]
      have hstep : removeAttr m (a :: rest) = a :: removeAttr m rest := by
        simp [removeAttr, List.filter_cons, hbm]
      rw [hstep, List.find?_cons, List.find?_cons]
      cases hn : (a.name == name) with
      | true => rfl
      | false => exact ih

/-! ## Root-attribute observations through the transform steps -/

/-- `removeRootAttr name` removes the named attribute from the root. -/
theorem rootHasAttr_removeRootAttr_self (name : List Char) (x : XNode) :
    rootHasAttr name (removeRootAttr name x) = false := by
  cases x with
  | text s => rfl
  | element t attrs cs => simpa [removeRootAttr, rootHasAttr] using any_removeAttr_self name attrs

/-- `removeRootAttr` of a different name preserves presence. -/
theorem rootHasAttr_removeRootAttr_other (name m : List Char) (x : XNode) (h : name ≠ m) :
    rootHasAttr name (removeRootAttr m x) = rootHasAttr name x := by
  cases x with
  | text s => rfl
  | element t attrs cs =>
    simpa [removeRootAttr, rootHasAttr] using any_removeAttr_other name m attrs h

/-- Absence of a root attribute survives any `removeRootAttr`. -/
theorem rootHasAttr_removeRootAttr_false (name m : List Char) (x : XNode)
    (h : rootHasAttr name x = false) :
    rootHasAttr name (removeRootAttr m x) = false := by
  cases x with
  | text s => rfl
  | element t attrs cs =>
    simp only [rootHasAttr] at h
    simpa [removeRootAttr, rootHasAttr] using any_removeAttr_false name m attrs h

/-- `removeRootAttr` of a different name preserves the attribute value. -/
theorem getRootAttr_removeRootAttr_other (name m : List Char) (x : XNode) (h : name ≠ m) :
    getRootAttr name (removeRootAttr m x) = getRootAttr name x := by
  cases x with
  | text s => rfl
  | element t attrs cs =>
    simp [removeRootAttr, getRootAttr, find_removeAttr_other name m attrs h]

/-- `removeClassDeep` only deletes `class` on the root, so any other root
attribute's presence is preserved. -/
theorem rootHasAttr_removeClassDeep_other (name : List Char) (x : XNode)
    (h : name ≠ classChars) :
    rootHasAttr name (removeClassDeep x) = rootHasAttr name x := by
  cases x with
  | text s => rfl
  | element t attrs cs =>
    simpa [removeClassDeep, rootHasAttr] using any_removeAttr_other name classChars attrs h

/-- Absence of a root attribute survives `removeClassDeep`. -/
theorem rootHasAttr_removeClassDeep_false (name : List Char) (x : XNode)
    (h : rootHasAttr name x = false) :
    rootHasAttr name (removeClassDeep x) = false := by
  cases x with
  | text s => rfl
  | element t attrs cs =>
    simp only [rootHasAttr] at h
    simpa [removeClassDeep, rootHasAttr] using any_removeAttr_false name classChars attrs h

/-- `removeClassDeep` preserves any non-`class` root attribute's value. -/
theorem getRootAttr_removeClassDeep_other (name : List Char) (x : XNode)
    (h : name ≠ classChars) :
    getRootAttr name (removeClassDeep x) = getRootAttr name x := by
  cases x with
  | text s => rfl
  | element t attrs cs =>
    simp [removeClassDeep, getRootAttr, find_removeAttr_other name classChars attrs h]

/-- Step form of `rootHasAttr_removeRootAttr_false` for a conditional step. -/
theorem rootHasAttr_step_false (name m : List Char) (x : XNode) (b : Bool)
    (h : rootHasAttr name x = false) :
    rootHasAttr name (if b then removeRootAttr m x else x) = false := by
  cases b
  · simpa using h
  · simpa using rootHasAttr_removeRootAttr_false name m x h

/-- Step form of `rootHasAttr_removeClassDeep_false`. -/
theorem rootHasAttr_classStep_false (name : List Char) (x : XNode) (b : Bool)
    (h : rootHasAttr name x = false) :
    rootHasAttr name (if b then removeClassDeep x else x) = false := by
  cases b
  · simpa using h
  · simpa using rootHasAttr_removeClassDeep_false name x h

/-- Step form of `rootHasAttr_removeRootAttr_other`. -/
theorem rootHasAttr_step_other (name m : List Char) (x : XNode) (b : Bool) (h : name ≠ m) :
    rootHasAttr name (if b then removeRootAttr m x else x) = rootHasAttr name x := by
  cases b
  · simp
  · simpa using rootHasAttr_removeRootAttr_other name m x h

/-- Step form of `rootHasAttr_removeClassDeep_other`. -/
theorem rootHasAttr_classStep_other (name : List Char) (x : XNode) (b : Bool)
    (h : name ≠ classChars) :
    rootHasAttr name (if b then removeClassDeep x else x) = rootHasAttr name x := by
  cases b
  · simp
  · simpa using rootHasAttr_removeClassDeep_other name x h

/-- Step form of `getRootAttr_removeRootAttr_other`. -/
theorem getRootAttr_step_other (name m : List Char) (x : XNode) (b : Bool) (h : name ≠ m) :
    getRootAttr name (if b then removeRootAttr m x else x) = getRootAttr name x := by
  cases b
  · simp
  · simpa using getRootAttr_removeRootAttr_other name m x h

/-- Step form of `getRootAttr_removeClassDeep_other`. -/
theorem getRootAttr_classStep_other (name : List Char) (x : XNode) (b : Bool)
    (h : name ≠ classChars) :
    getRootAttr name (if b then removeClassDeep x else x) = getRootAttr name x := by
  cases b
  · simp
  · simpa using getRootAttr_removeClassDeep_other name x h

/-! ## Claim C2: the xmlns option -/

/-- C2: on a successfully parsed `svg` root carrying `xmlns`, the transform
serializes the option-processed tree; with `removeXmlns = true` that tree's
root has no `xmlns` attribute, and with `removeXmlns = false` the attribute
is still present with its original value. -/
theorem optimizeSvgBase_xmlns_option (s : String) (o : BaseOptions) (root : XNode)
    (hws : s.data.all isJsWhitespace = false)
    (hp : parseXml s = some root)
    (hsvg : rootTagLower root = svgChars)
    (hx : rootHasAttr xmlnsChars root = true) :
    optimizeSvgBase s o = String.mk (serializeNode (applyOptions o root)) ∧
    (o.removeXmlns = true → rootHasAttr xmlnsChars (applyOptions o root) = false) ∧
    (o.removeXmlns = false →
      rootHasAttr xmlnsChars (applyOptions o root) = true ∧
      getRootAttr xmlnsChars (applyOptions o root) = getRootAttr xmlnsChars root) := by
  refine ⟨?_, ?_, ?_⟩
  · unfold optimizeSvgBase
    rw [hws, hp]
    simp only [Bool.false_eq_true, if_false]
    rw [if_neg (by simp [hsvg])]
  · intro hb
    unfold applyOptions
    rw [hb]
    simp only [if_true]
    apply rootHasAttr_classStep_false
    apply rootHasAttr_step_false
    apply rootHasAttr_step_false
    exact rootHasAttr_removeRootAttr_self xmlnsChars root
  · intro hb
    unfold applyOptions
    rw [hb]
    simp only [Bool.false_eq_true, if_false]
    constructor
    · rw [rootHasAttr_classStep_other xmlnsChars _ _ (by decide),
        rootHasAttr_step_other xmlnsChars heightChars _ _ (by decide),
        rootHasAttr_step_other xmlnsChars widthChars _ _ (by decide)]
      exact hx
    · rw [getRootAttr_classStep_other xmlnsChars _ _ (by decide),
        getRootAttr_step_other xmlnsChars heightChars _ _ (by decide),
        getRootAttr_step_other xmlnsChars widthChars _ _ (by decide)]

/-- C2 witness: `<svg xmlns="a" width="24"/>` with only `removeXmlns`
toggled. -/
theorem optimizeSvgBase_xmlns_option_witness :
    optimizeSvgBase "<svg xmlns=\"a\" width=\"24\"/>" ⟨false, false, false, true⟩ =
      String.mk (serializeNode (applyOptions ⟨false, false, false, true⟩
        (XNode.element svgChars
          [⟨xmlnsChars, ['a']⟩, ⟨widthChars, ['2', '4']⟩] []))) ∧
    rootHasAttr xmlnsChars (applyOptions ⟨false, false, false, true⟩
      (XNode.element svgChars [⟨xmlnsChars, ['a']⟩, ⟨widthChars, ['2', '4']⟩] [])) = false ∧
    rootHasAttr xmlnsChars (applyOptions ⟨false, false, false, false⟩
      (XNode.element svgChars [⟨xmlnsChars, ['a']⟩, ⟨widthChars, ['2', '4']⟩] [])) = true := by
  have h1 := optimizeSvgBase_xmlns_option "<svg xmlns=\"a\" width=\"24\"/>"
    ⟨false, false, false, true⟩
    (XNode.element svgChars [⟨xmlnsChars, ['a']⟩, ⟨widthChars, ['2', '4']⟩] [])
    (by rfl) (by rfl) (by rfl) (by rfl)
  have h2 := optimizeSvgBase_xmlns_option "<svg xmlns=\"a\" width=\"24\"/>"
    ⟨false, false, false, false⟩
    (XNode.element svgChars [⟨xmlnsChars, ['a']⟩, ⟨widthChars, ['2', '4']⟩] [])
    (by rfl) (by rfl) (by rfl) (by rfl)
  exact ⟨h1.1, h1.2.1 rfl, (h2.2.2 rfl).1⟩

/-! ## Deep class removal lemmas -/

mutual

/-- After `removeClassDeep`, no element of the tree carries `class`. -/
theorem hasClassDeep_removeClassDeep_false (x : XNode) :
    hasClassDeep (removeClassDeep x) = false := by
  cases x with
  | text s => rfl
  | element t attrs cs =>
    simp [removeClassDeep, hasClassDeep, any_removeAttr_self,
      hasClassDeepList_removeClassDeepList_false cs]

/-- After `removeClassDeepList`, no element of any tree carries `class`. -/
theorem hasClassDeepList_removeClassDeepList_false (l : List XNode) :
    hasClassDeepList (removeClassDeepList l) = false := by
  cases l with
  | nil => rfl
  | cons n rest =>
    simp [removeClassDeepList, hasClassDeepList,
      hasClassDeep_removeClassDeep_false n,
      hasClassDeepList_removeClassDeepList_false rest]

end

/-- Removing a non-`class` root attribute preserves every element's
`class` attribute. -/
theorem classAttrs_removeRootAttr (m : List Char) (x : XNode) (h : classChars ≠ m) :
    classAttrs (removeRootAttr m x) = classAttrs x := by
  cases x with
  | text s => rfl
  | element t attrs cs =>
    simp [removeRootAttr, classAttrs, find_removeAttr_other classChars m attrs h]

/-- Step form of `classAttrs_removeRootAttr`. -/
theorem classAttrs_step (m : List Char) (x : XNode) (b : Bool) (h : classChars ≠ m) :
    classAttrs (if b then removeRootAttr m x else x) = classAttrs x := by
  cases b
  · simp
  · simpa using classAttrs_removeRootAttr m x h

/-! ## Claim C5: the classes option -/

/-- C5: on a successfully parsed `svg` root, the transform serializes the
option-processed tree; with `removeClasses = true` no element of that tree
(root or descendant) carries a `class` attribute, and with
`removeClasses = false` every element's `class` attribute is unchanged. -/
theorem optimizeSvgBase_classes_option (s : String) (o : BaseOptions) (root : XNode)
    (hws : s.data.all isJsWhitespace = false)
    (hp : parseXml s = some root)
    (hsvg : rootTagLower root = svgChars) :
    optimizeSvgBase s o = String.mk (serializeNode (applyOptions o root)) ∧
    (o.removeClasses = true → hasClassDeep (applyOptions o root) = false) ∧
    (o.removeClasses = false → classAttrs (applyOptions o root) = classAttrs root) := by
  refine ⟨?_, ?_, ?_⟩
  · unfold optimizeSvgBase
    rw [hws, hp]
    simp only [Bool.false_eq_true, if_false]
    rw [if_neg (by simp [hsvg])]
  · intro hb
    unfold applyOptions
    rw [hb]
    simp only [if_true]
    exact hasClassDeep_removeClassDeep_false _
  · intro hb
    unfold applyOptions
    rw [hb]
    simp only [Bool.false_eq_true, if_false]
    rw [classAttrs_step heightChars _ _ (by decide),
      classAttrs_step widthChars _ _ (by decide),
      classAttrs_step xmlnsChars _ _ (by decide)]

/-- C5 witness: `<svg class="icon"><path class="p"/></svg>` with only
`removeClasses` toggled. -/
theorem optimizeSvgBase_classes_option_witness :
    optimizeSvgBase "<svg class=\"icon\"><path class=\"p\"/></svg>"
        ⟨true, false, false, false⟩ =
      String.mk (serializeNode (applyOptions ⟨true, false, false, false⟩
        (XNode.element svgChars [⟨classChars, ['i', 'c', 'o', 'n']⟩]
          [XNode.element ['p', 'a', 't', 'h'] [⟨classChars, ['p']⟩] []]))) ∧
    hasClassDeep (applyOptions ⟨true, false, false, false⟩
      (XNode.element svgChars [⟨classChars, ['i', 'c', 'o', 'n']⟩]
        [XNode.element ['p', 'a', 't', 'h'] [⟨classChars, ['p']⟩] []])) = false ∧
    classAttrs (applyOptions ⟨false, false, false, false⟩
        (XNode.element svgChars [⟨classChars, ['i', 'c', 'o', 'n']⟩]
          [XNode.element ['p', 'a', 't', 'h'] [⟨classChars, ['p']⟩] []])) =
      classAttrs (XNode.element svgChars [⟨classChars, ['i', 'c', 'o', 'n']⟩]
        [XNode.element ['p', 'a', 't', 'h'] [⟨classChars, ['p']⟩] []]) := by
  have h1 := optimizeSvgBase_classes_option "<svg class=\"icon\"><path class=\"p\"/></svg>"
    ⟨true, false, false, false⟩
    (XNode.element svgChars [⟨classChars, ['i', 'c', 'o', 'n']⟩]
      [XNode.element ['p', 'a', 't', 'h'] [⟨classChars, ['p']⟩] []])
    (by rfl) (by rfl) (by rfl)
  have h2 := optimizeSvgBase_classes_option "<svg class=\"icon\"><path class=\"p\"/></svg>"
    ⟨false, false, false, false⟩
    (XNode.element svgChars [⟨classChars, ['i', 'c', 'o', 'n']⟩]
      [XNode.element ['p', 'a', 't', 'h'] [⟨classChars, ['p']⟩] []])
    (by rfl) (by rfl) (by rfl)
  exact ⟨h1.1, h1.2.1 rfl, h2.2.2 rfl⟩

/-! ## Character facts for the parser round trip -/

/-- A name character is not markup whitespace. -/
theorem isNameChar_not_xmlSpace {c : Char} (h : isNameChar c = true) :
    isXmlSpace c = false := by
  cases hs : isXmlSpace c
  · rfl
  · exfalso
    simp only [isXmlSpace, Bool.or_eq_true, decide_eq_true_eq] at hs
    rcases hs with ((h1 | h1) | h1) | h1 <;> (subst h1; exact absurd h (by decide))

/-- Membership version of `List.all_eq_true` for `Bool` predicates. -/
theorem all_mem_true {α : Type} {p : α → Bool} {l : List α} (h : l.all p = true) :
    ∀ c ∈ l, p c = true := by
  rw [List.all_eq_true] at h
  exact h

/-! ## Round trip: names and attributes -/

/-- Parsing a serialized name stops exactly at the name's end. -/
theorem parseXmlName_round (tag r : List Char) (h1 : tag ≠ [])
    (h2 : tag.all isNameChar = true)
    (hr : ∀ c r2, r = c :: r2 → isNameChar c = false) :
    parseXmlName (tag ++ r) = some (tag, r) := by
  obtain ⟨htw, hdw⟩ := takeWhile_dropWhile_append isNameChar tag r (all_mem_true h2)
    (fun c r2 he => hr c r2 he)
  have hemp : tag.isEmpty = false := by
    cases tag with
    | nil => exact absurd rfl h1
    | cons a t => rfl
  unfold parseXmlName
  simp only [htw, hdw, hemp, Bool.false_eq_true, if_false]

/-- Parsing serialized attributes recovers the attribute list, leaving the
trailing text untouched. -/
theorem parseXmlAttrs_round : ∀ (fuel : Nat) (attrs : List XAttr) (r : List Char),
    attrs.all wfAttr = true →
    attrs.length < fuel →
    (∀ c r2, r = c :: r2 → isNameChar c = false ∧ isXmlSpace c = false) →
    parseXmlAttrs fuel (serializeAttrs attrs ++ r) = some (attrs, r) := by
  intro fuel
  induction fuel with
  | zero => intro attrs r _ hf _; omega
  | succ f ih =>
    intro attrs r hwf hf hr
    cases attrs with
    | nil =>
      simp only [serializeAttrs, List.nil_append]
      have hskip : skipXmlSpace r = r := by
        cases r with
        | nil => rfl
        | cons c r2 => simp [skipXmlSpace, List.dropWhile_cons, (hr c r2 rfl).2]
      unfold parseXmlAttrs
      rw [hskip]
      cases r with
      | nil => rfl
      | cons c r2 =>
        have hnc : ¬(isNameChar c = true) := by simp [(hr c r2 rfl).1]
        simp only [if_neg hnc]
    | cons a rest =>
      have hwfa : wfAttr a = true ∧ rest.all wfAttr = true := by
        simp only [List.all_cons, Bool.and_eq_true] at hwf
        exact hwf
      have hname : a.name.isEmpty = false ∧ a.name.all isNameChar = true ∧
          a.value.contains '"' = false := by
        have := hwfa.1
        simp only [wfAttr, Bool.and_eq_true, Bool.not_eq_true'] at this
        exact ⟨this.1.1, this.1.2, this.2⟩
      obtain ⟨n0, ntail, hn0⟩ : ∃ n0 ntail, a.name = n0 :: ntail := by
        cases he : a.name with
        | nil => rw [he] at hname; exact absurd hname.1 (by simp)
        | cons n0 ntail => exact ⟨n0, ntail, rfl⟩
      have hn0name : isNameChar n0 = true := by
        have := all_mem_true hname.2.1
        exact this n0 (by rw [hn0]; simp)
      have hser : serializeAttrs (a :: rest) ++ r =
          ' ' :: (a.name ++ ('=' :: '"' :: (a.value ++
            ('"' :: (serializeAttrs rest ++ r))))) := by
        simp [serializeAttrs, List.append_assoc]
      rw [hser]
      unfold parseXmlAttrs
      have hskip1 : skipXmlSpace (' ' :: (a.name ++ ('=' :: '"' :: (a.value ++
          ('"' :: (serializeAttrs rest ++ r)))))) =
          a.name ++ ('=' :: '"' :: (a.value ++ ('"' :: (serializeAttrs rest ++ r)))) := by
      

        rw [hn0]
        simp [skipXmlSpace, List.dropWhile_cons, isNameChar_not_xmlSpace hn0name,
          show isXmlSpace ' ' = true from rfl]
      rw [hskip1, hn0]
      simp only [List.cons_append]
      rw [if_pos hn0name]
      have htw := takeWhile_dropWhile_append isNameChar a.name
        ('=' :: '"' :: (a.value ++ ('"' :: (serializeAttrs rest ++ r))))
        (all_mem_true hname.2.1) (by intro c r2 he; injection he with h1 _; rw [← h1]; decide)
      rw [hn0] at htw
      simp only [List.cons_append] at htw
      rw [htw.1, htw.2]
      have hskip2 : skipXmlSpace ('=' :: '"' :: (a.value ++ ('"' :: (serializeAttrs rest ++ r)))) =
          '=' :: '"' :: (a.value ++ ('"' :: (serializeAttrs rest ++ r))) := by
        simp [skipXmlSpace, List.dropWhile_cons, show isXmlSpace '=' = false from rfl]
      have hskip3 : skipXmlSpace ('"' :: (a.value ++ ('"' :: (serializeAttrs rest ++ r)))) =
          '"' :: (a.value ++ ('"' :: (serializeAttrs rest ++ r))) := by
        simp [skipXmlSpace, List.dropWhile_cons, show isXmlSpace '"' = false from rfl]
      have hvq : ∀ c ∈ a.value, (c != '"') = true := by
        intro c hc
        have hne : ¬(c = '"') := by
          intro he
          rw [he] at hc
          have hcont := hname.2.2
          rw [List.contains_eq_any_beq, List.any_eq_false] at hcont
          simpa using hcont '"' hc
        simp [bne_iff_ne, hne]
      have htwv := takeWhile_dropWhile_append (fun d => d != '"') a.value
        ('"' :: (serializeAttrs rest ++ r)) hvq
        (by intro c r2 he; injection he with h1 _; rw [← h1]; simp)
      have hrec := ih rest r hwfa.2 (by simpa using Nat.lt_of_succ_lt_succ hf) hr
      rw [hskip2]
      simp only [eq_self_iff_true, if_true]
      rw [hskip3]
      simp only [eq_self_iff_true, if_true]
      rw [htwv.1, htwv.2]
      simp only [eq_self_iff_true, if_true]
      rw [hrec, ← hn0]

/-! ## Structure lemmas for well-formed trees -/

/-- A well-formed sibling list has a well-formed head and tail. -/
theorem wfNodes_cons_wf {n : XNode} {l : List XNode} (h : wfNodes (n :: l) = true) :
    wfNode n = true ∧ wfNodes l = true := by
  cases l with
  | nil => exact ⟨h, rfl⟩
  | cons m rest =>
    simp only [wfNodes, Bool.and_eq_true] at h
    exact ⟨h.1.1, h.2⟩

/-- In a well-formed list a text node is never followed by a text node. -/
theorem wfNodes_cons_adj {s : List Char} {n : XNode} {l : List XNode}
    (h : wfNodes (.text s :: n :: l) = true) : isTextNode n = false := by
  simp only [wfNodes, Bool.and_eq_true, Bool.not_eq_true'] at h
  have h2 := h.1.2
  simp only [isTextNode, Bool.true_and] at h2
  exact h2

/-- The fuel bound of a node is at least one. -/
theorem fuelForNode_pos (x : XNode) : 1 ≤ fuelForNode x := by
  cases x <;> simp [fuelForNode]

/-- The fuel bound of a list is at least one. -/
theorem fuelForNodes_pos (l : List XNode) : 1 ≤ fuelForNodes l := by
  cases l <;> simp [fuelForNodes]

/-- Serialized attributes are at least as long as the attribute list. -/
theorem serializeAttrs_length (attrs : List XAttr) :
    attrs.length ≤ (serializeAttrs attrs).length := by
  induction attrs with
  | nil => simp [serializeAttrs]
  | cons a rest ih => simp [serializeAttrs]; omega

/-- A well-formed node serializes to a nonempty text. -/
theorem serializeNode_length_pos (x : XNode) (h : wfNode x = true) :
    1 ≤ (serializeNode x).length := by
  cases x with
  | text s =>
    simp only [wfNode, Bool.and_eq_true, Bool.not_eq_true'] at h
    have : s ≠ [] := by
      intro he
      rw [he] at h
      simp at h
    cases s with
    | nil => exact absurd rfl this
    | cons c r => simp [serializeNode]
  | element tag attrs cs => simp [serializeNode]

mutual

/-- The fuel bound of a well-formed node is below its serialized length. -/
theorem fuelForNode_le (x : XNode) (h : wfNode x = true) :
    fuelForNode x ≤ (serializeNode x).length := by
  cases x with
  | text s => simpa [fuelForNode] using serializeNode_length_pos (.text s) h
  | element tag attrs cs =>
    have hC : wfNodes cs = true := by
      simp only [wfNode, Bool.and_eq_true] at h
      exact h.2
    have ih := fuelForNodes_le cs hC
    cases cs with
    | nil => simp [fuelForNode, fuelForNodes, serializeNode]; omega
    | cons c0 cs2 =>
      simp only [fuelForNode, serializeNode, List.length_cons, List.length_append]
      simp only [serializeNodeList] at ih ⊢
      omega

/-- The fuel bound of a well-formed list is below its serialized length
plus one. -/
theorem fuelForNodes_le (l : List XNode) (h : wfNodes l = true) :
    fuelForNodes l ≤ (serializeNodeList l).length + 1 := by
  cases l with
  | nil => simp [fuelForNodes, serializeNodeList]
  | cons n rest =>
    obtain ⟨hn, hrest⟩ := wfNodes_cons_wf h
    have ih1 := fuelForNode_le n hn
    have ih2 := fuelForNodes_le rest hrest
    have hpos := serializeNode_length_pos n hn
    simp only [fuelForNodes, serializeNodeList, List.length_append]
    have hmax : max (fuelForNode n) (fuelForNodes rest) ≤
        (serializeNode n).length + (serializeNodeList rest).length := by
      apply max_le
      · omega
      · omega
    omega

end

/-- A list with `isEmpty = false` is not nil. -/
theorem ne_nil_of_isEmpty_false {α : Type} {l : List α} (h : l.isEmpty = false) :
    l ≠ [] := by
  cases l with
  | nil => simp at h
  | cons a r => simp

/-- The character after serialized attributes is the trailing text's head,
or the space starting the first attribute — never a name character. -/
theorem head_not_name_serializeAttrs (attrs : List XAttr) (k : List Char)
    (hk : ∀ c r2, k = c :: r2 → isNameChar c = false) :
    ∀ c r2, serializeAttrs attrs ++ k = c :: r2 → isNameChar c = false := by
  cases attrs with
  | nil => simpa [serializeAttrs] using hk
  | cons a rest =>
    intro c r2 he
    simp only [serializeAttrs, List.cons_append] at he
    injection he with h1 _
    rw [← h1]
    decide

/-! ## The parser inverts the serializer on well-formed trees -/

/-- Round trip at every fuel level: parsing the serialization of a
well-formed element (or sibling list, when the trailing text is empty or a
close tag) returns the tree and the trailing text. -/
theorem parse_serialize_round : ∀ fuel : Nat,
    (∀ (tag : List Char) (attrs : List XAttr) (cs : List XNode) (rest : List Char),
      wfNode (.element tag attrs cs) = true →
      fuelForNode (.element tag attrs cs) ≤ fuel →
      parseElement fuel (serializeNode (.element tag attrs cs) ++ rest) =
        some (.element tag attrs cs, rest)) ∧
    (∀ (l : List XNode) (rest : List Char),
      wfNodes l = true →
      fuelForNodes l ≤ fuel →
      (rest = [] ∨ ∃ r2, rest = '<' :: '/' :: r2) →
      parseNodes fuel (serializeNodeList l ++ rest) = some (l, rest)) := by
  intro fuel
  induction fuel using Nat.strong_induction_on with
  | _ fuel ih =>
  constructor
  · intro tag attrs cs rest hwf hfuel
    have hf1 : 1 ≤ fuel := le_trans (fuelForNode_pos _) hfuel
    obtain ⟨f, rfl⟩ : ∃ f, fuel = f + 1 := ⟨fuel - 1, by omega⟩
    simp only [wfNode, Bool.and_eq_true, Bool.not_eq_true'] at hwf
    obtain ⟨⟨⟨hN, hT⟩, hA⟩, hC⟩ := hwf
    have htagne := ne_nil_of_isEmpty_false hN
    cases cs with
    | nil =>
      have hser : serializeNode (XNode.element tag attrs []) ++ rest =
          '<' :: (tag ++ (serializeAttrs attrs ++ ('/' :: '>' :: rest))) := by
        simp [serializeNode, List.append_assoc]
      have hnamecall : parseXmlName (tag ++ (serializeAttrs attrs ++ ('/' :: '>' :: rest))) =
          some (tag, serializeAttrs attrs ++ ('/' :: '>' :: rest)) :=
        parseXmlName_round _ _ htagne hT
          (head_not_name_serializeAttrs attrs _
            (by intro c r2 he; injection he with h1 _; rw [← h1]; decide))
      have hattrscall : parseXmlAttrs ((serializeAttrs attrs ++ ('/' :: '>' :: rest)).length + 1)
          (serializeAttrs attrs ++ ('/' :: '>' :: rest)) = some (attrs, '/' :: '>' :: rest) := by
        apply parseXmlAttrs_round _ attrs _ hA
        · have := serializeAttrs_length attrs
          simp only [List.length_append]
          omega
        · intro c r2 he
          injection he with h1 _
          rw [← h1]
          exact ⟨by decide, by decide⟩
      rw [hser]
      unfold parseElement
      simp only [hnamecall, hattrscall, eq_self_iff_true, if_true]
    | cons c0 cs2 =>
      have hser : serializeNode (XNode.element tag attrs (c0 :: cs2)) ++ rest =
          '<' :: (tag ++ (serializeAttrs attrs ++ ('>' ::
            (serializeNodeList (c0 :: cs2) ++ ('<' :: '/' :: (tag ++ ('>' :: rest))))))) := by
        simp [serializeNode, List.append_assoc]
      have hnamecall : parseXmlName (tag ++ (serializeAttrs attrs ++ ('>' ::
            (serializeNodeList (c0 :: cs2) ++ ('<' :: '/' :: (tag ++ ('>' :: rest))))))) =
          some (tag, serializeAttrs attrs ++ ('>' ::
            (serializeNodeList (c0 :: cs2) ++ ('<' :: '/' :: (tag ++ ('>' :: rest)))))) :=
        parseXmlName_round _ _ htagne hT
          (head_not_name_serializeAttrs attrs _
            (by intro c r2 he; injection he with h1 _; rw [← h1]; decide))
      have hattrscall : parseXmlAttrs ((serializeAttrs attrs ++ ('>' ::
            (serializeNodeList (c0 :: cs2) ++ ('<' :: '/' :: (tag ++ ('>' :: rest)))))).length + 1)
          (serializeAttrs attrs ++ ('>' ::
            (serializeNodeList (c0 :: cs2) ++ ('<' :: '/' :: (tag ++ ('>' :: rest)))))) =
          some (attrs, '>' ::
            (serializeNodeList (c0 :: cs2) ++ ('<' :: '/' :: (tag ++ ('>' :: rest))))) := by
        apply parseXmlAttrs_round _ attrs _ hA
        · have := serializeAttrs_length attrs
          simp only [List.length_append]
          omega
        · intro c r2 he
          injection he with h1 _
          rw [← h1]
          exact ⟨by decide, by decide⟩
      have hnodescall : parseNodes f (serializeNodeList (c0 :: cs2) ++
          ('<' :: '/' :: (tag ++ ('>' :: rest)))) =
          some (c0 :: cs2, '<' :: '/' :: (tag ++ ('>' :: rest))) := by
        apply (ih f (by omega)).2 _ _ hC
        · have : fuelForNode (XNode.element tag attrs (c0 :: cs2)) =
              1 + fuelForNodes (c0 :: cs2) := rfl
          omega
        · exact Or.inr ⟨tag ++ ('>' :: rest), rfl⟩
      have hprefix : tag.isPrefixOf (tag ++ ('>' :: rest)) = true :=
        List.isPrefixOf_iff_prefix.mpr (List.prefix_append _ _)
      have hexp : expectGt ((tag ++ ('>' :: rest)).drop tag.length) = some rest := by
        rw [List.drop_left]
        unfold expectGt
        have hsk : skipXmlSpace ('>' :: rest) = '>' :: rest := by
          simp [skipXmlSpace, List.dropWhile_cons, show isXmlSpace '>' = false from rfl]
        rw [hsk]
        simp
      rw [hser]
      unfold parseElement
      simp only [hnamecall, hattrscall, hnodescall, hexp, hprefix,
        eq_self_iff_true, if_true, and_true, true_and,
        show ¬(('>' : Char) = '/') from by decide, if_false]
  · intro l rest hwf hfuel hrest
    have hf1 : 1 ≤ fuel := le_trans (fuelForNodes_pos _) hfuel
    obtain ⟨f, rfl⟩ : ∃ f, fuel = f + 1 := ⟨fuel - 1, by omega⟩
    cases l with
    | nil =>
      simp only [serializeNodeList, List.nil_append]
      rcases hrest with h | ⟨r2, h⟩
      · rw [h]
        rfl
      · rw [h]
        unfold parseNodes
        simp [List.take]
    | cons n l2 =>
      obtain ⟨hn, hl2⟩ := wfNodes_cons_wf hwf
      have hfl2 : fuelForNodes l2 ≤ f := by
        have : fuelForNodes (n :: l2) = 1 + max (fuelForNode n) (fuelForNodes l2) := rfl
        have h2 := le_max_right (fuelForNode n) (fuelForNodes l2)
        omega
      have hfn : fuelForNode n ≤ f := by
        have : fuelForNodes (n :: l2) = 1 + max (fuelForNode n) (fuelForNodes l2) := rfl
        have h2 := le_max_left (fuelForNode n) (fuelForNodes l2)
        omega
      have hreccall : parseNodes f (serializeNodeList l2 ++ rest) = some (l2, rest) :=
        (ih f (by omega)).2 l2 rest hl2 hfl2 hrest
      cases n with
      | element tag2 attrs2 cs2 =>
        have hwfe := hn
        simp only [wfNode, Bool.and_eq_true, Bool.not_eq_true'] at hwfe
        obtain ⟨⟨⟨hN2, hT2⟩, _⟩, _⟩ := hwfe
        obtain ⟨t0, tt, ht2⟩ : ∃ t0 tt, tag2 = t0 :: tt := by
          cases he : tag2 with
          | nil => rw [he] at hN2; simp at hN2
          | cons t0 tt => exact ⟨t0, tt, rfl⟩
        have ht0name : isNameChar t0 = true :=
          all_mem_true hT2 t0 (by rw [ht2]; simp)
        have ht0ne : ¬(t0 = '/') := by
          intro he
          rw [he] at ht0name
          exact absurd ht0name (by decide)
        obtain ⟨z, hZ⟩ : ∃ z, serializeNode (XNode.element tag2 attrs2 cs2) =
            '<' :: (tag2 ++ z) := by
          cases cs2 with
          | nil =>
            exact ⟨serializeAttrs attrs2 ++ ['/', '>'], by simp [serializeNode]⟩
          | cons d0 ds =>
            exact ⟨serializeAttrs attrs2 ++ ('>' :: (serializeNodeList (d0 :: ds) ++
              ('<' :: '/' :: (tag2 ++ ['>'])))), by simp [serializeNode, List.append_assoc]⟩
        have hshape : serializeNodeList (XNode.element tag2 attrs2 cs2 :: l2) ++ rest =
            '<' :: t0 :: (tt ++ (z ++ (serializeNodeList l2 ++ rest))) := by
          simp only [serializeNodeList]
          rw [List.append_assoc, hZ, ht2]
          simp [List.append_assoc]
        have hback : ('<' : Char) :: t0 :: (tt ++ (z ++ (serializeNodeList l2 ++ rest))) =
            serializeNode (XNode.element tag2 attrs2 cs2) ++ (serializeNodeList l2 ++ rest) := by
          rw [hZ, ht2]
          simp [List.append_assoc]
        have helemcall := (ih f (by omega)).1 tag2 attrs2 cs2
          (serializeNodeList l2 ++ rest) hn hfn
        rw [hshape]
        unfold parseNodes
        simp only [eq_self_iff_true, if_true, List.take,
          show (([t0] : List Char) = ['/']) = (t0 = '/') from by simp,
          if_neg ht0ne]
        rw [hback, helemcall]
        simp only [hreccall]
      | text s =>
        have hwft := hn
        simp only [wfNode, Bool.and_eq_true, Bool.not_eq_true'] at hwft
        obtain ⟨hsne, hslt⟩ := hwft
        obtain ⟨s0, st, hs⟩ : ∃ s0 st, s = s0 :: st := by
          cases he : s with
          | nil => rw [he] at hsne; simp at hsne
          | cons s0 st => exact ⟨s0, st, rfl⟩
        have hsmem : ∀ c ∈ s, (c != '<') = true := by
          intro c hc
          have : ¬(c = '<') := by
            intro he
            rw [he] at hc
            rw [List.contains_eq_any_beq, List.any_eq_false] at hslt
            simpa using hslt '<' hc
          simp [bne_iff_ne, this]
        have hs0ne : ¬(s0 = '<') := by
          have := hsmem s0 (by rw [hs]; simp)
          simp [bne_iff_ne] at this
          exact this
        have hheadK : ∀ c r2, serializeNodeList l2 ++ rest = c :: r2 → c = '<' := by
          intro c r2 he
          cases l2 with
          | nil =>
            simp only [serializeNodeList, List.nil_append] at he
            rcases hrest with h | ⟨r3, h⟩
            · rw [h] at he; cases he
            · rw [h] at he; injection he with h1 _; exact h1.symm
          | cons m l3 =>
            have hmel : isTextNode m = false := wfNodes_cons_adj (hs ▸ hwf)
            cases m with
            | text s2 => simp [isTextNode] at hmel
            | element tag3 attrs3 cs3 =>
              simp only [serializeNodeList, serializeNode, List.cons_append] at he
              injection he with h1 _
              exact h1.symm
        have htwk := takeWhile_dropWhile_append (fun d => d != '<') s
          (serializeNodeList l2 ++ rest) hsmem
          (by
            intro c r2 he
            have := hheadK c r2 he
            rw [this]
            simp)
        have hshape : serializeNodeList (XNode.text s :: l2) ++ rest =
            s0 :: (st ++ (serializeNodeList l2 ++ rest)) := by
          simp only [serializeNodeList, serializeNode]
          rw [hs]
          simp [List.append_assoc]
        rw [hshape]
        unfold parseNodes
        simp only [if_neg hs0ne]
        have htwk1 : List.takeWhile (fun d => d != '<')
            (s0 :: (st ++ (serializeNodeList l2 ++ rest))) = s0 :: st := by
          have := htwk.1
          rw [hs] at this
          simpa [List.cons_append] using this
        have htwk2 : List.dropWhile (fun d => d != '<')
            (s0 :: (st ++ (serializeNodeList l2 ++ rest))) =
            serializeNodeList l2 ++ rest := by
          have := htwk.2
          rw [hs] at this
          simpa [List.cons_append] using this
        simp only [htwk1, htwk2, hreccall, hs]

/-! ## Parser outputs are well-formed -/

/-- Every kept element of `takeWhile` satisfies the predicate. -/
theorem takeWhile_all {α : Type} (p : α → Bool) (l : List α) :
    (l.takeWhile p).all p = true := by
  induction l with
  | nil => rfl
  | cons a r ih =>
    cases hp : p a
    · simp [List.takeWhile_cons, hp]
    · simp [List.takeWhile_cons, hp, ih]

/-- `takeWhile (· != ch)` produces a list not containing `ch`. -/
theorem takeWhile_bne_not_contains (ch : Char) (l : List Char) :
    ((l.takeWhile (fun d => d != ch)).contains ch) = false := by
  rw [List.contains_eq_any_beq, List.any_eq_false]
  intro x hx
  have hx2 := all_mem_true (takeWhile_all (fun d => d != ch) l) x hx
  simp only [bne_iff_ne, ne_eq, decide_eq_true_eq] at hx2
  simp only [beq_iff_eq]
  exact fun e => hx2 e.symm

/-- The head dropped-to by `dropWhile` fails the predicate. -/
theorem head_dropWhile {α : Type} (p : α → Bool) (l : List α) (c : α) (r : List α)
    (h : l.dropWhile p = c :: r) : p c = false := by
  induction l with
  | nil => cases h
  | cons a t ih =>
    rw [List.dropWhile_cons] at h
    by_cases hp : p a = true
    · rw [if_pos hp] at h
      exact ih h
    · rw [if_neg hp] at h
      injection h with h1 _
      rw [← h1]
      simpa using hp

/-- A parsed name is a nonempty run of name characters. -/
theorem parseXmlName_wf (l n r : List Char) (h : parseXmlName l = some (n, r)) :
    n ≠ [] ∧ n.all isNameChar = true := by
  unfold parseXmlName at h
  by_cases he : (l.takeWhile isNameChar).isEmpty = true
  · rw [if_pos he] at h
    cases h
  · rw [if_neg he] at h
    injection h with h1
    injection h1 with h2 h3
    rw [← h2]
    refine ⟨ne_nil_of_isEmpty_false (by simpa using he), takeWhile_all _ _⟩

/-- Building a well-formed list by consing a non-text node. -/
theorem wfNodes_cons_of_elem (n : XNode) (ns : List XNode)
    (h1 : wfNode n = true) (h2 : wfNodes ns = true) (h3 : isTextNode n = false) :
    wfNodes (n :: ns) = true := by
  cases ns with
  | nil => simpa [wfNodes] using h1
  | cons m l3 => simp [wfNodes, h1, h2, h3]

/-- Parsed attributes are well-formed. -/
theorem parseXmlAttrs_wf : ∀ (fuel : Nat) (l : List Char) (attrs : List XAttr) (r : List Char),
    parseXmlAttrs fuel l = some (attrs, r) → attrs.all wfAttr = true := by
  intro fuel
  induction fuel with
  | zero => intro l attrs r h; simp [parseXmlAttrs] at h
  | succ f ih =>
    intro l attrs r h
    unfold parseXmlAttrs at h
    cases hsk : skipXmlSpace l with
    | nil =>
      simp only [hsk] at h
      injection h with h1
      injection h1 with h2 _
      rw [← h2]
      rfl
    | cons c r0 =>
      simp only [hsk] at h
      by_cases hc : isNameChar c = true
      · rw [if_pos hc] at h
        cases hsk1 : skipXmlSpace (List.dropWhile isNameChar (c :: r0)) with
        | nil => simp [hsk1] at h
        | cons c1 r2 =>
          simp only [hsk1] at h
          by_cases hc1 : c1 = '='
          · rw [if_pos hc1] at h
            cases hsk2 : skipXmlSpace r2 with
            | nil => simp [hsk2] at h
            | cons c2 r3 =>
              simp only [hsk2] at h
              by_cases hc2 : c2 = '"'
              · rw [if_pos hc2] at h
                cases hdw : List.dropWhile (fun d => d != '"') r3 with
                | nil => simp [hdw] at h
                | cons c3 r4 =>
                  simp only [hdw] at h
                  by_cases hc3 : c3 = '"'
                  · rw [if_pos hc3] at h
                    cases hrec : parseXmlAttrs f r4 with
                    | none => simp [hrec] at h
                    | some p =>
                      obtain ⟨attrs2, r5⟩ := p
                      simp only [hrec] at h
                      injection h with h1
                      injection h1 with h2 h3
                      rw [← h2]
                      have hwfa : wfAttr ⟨List.takeWhile isNameChar (c :: r0),
                          List.takeWhile (fun d => d != '"') r3⟩ = true := by
                        simp only [wfAttr, Bool.and_eq_true, Bool.not_eq_true']
                        refine ⟨⟨?_, takeWhile_all _ _⟩, takeWhile_bne_not_contains _ _⟩
                        simp [List.takeWhile_cons, hc]
                      simp [List.all_cons, hwfa, ih r4 attrs2 r5 hrec]
                  · simp [hc3] at h
              · simp [hc2] at h
          · simp [hc1] at h
      · rw [if_neg hc] at h
        injection h with h1
        injection h1 with h2 _
        rw [← h2]
        rfl

/-- Everything the parser returns is well-formed: elements for
`parseElement`, and sibling lists without adjacent texts for `parseNodes`
(whose first node, when a text, implies the input did not start with
`'<'`). -/
theorem parse_wf : ∀ fuel : Nat,
    (∀ (l : List Char) (x : XNode) (r : List Char),
      parseElement fuel l = some (x, r) → wfNode x = true ∧ isTextNode x = false) ∧
    (∀ (l : List Char) (ns : List XNode) (r : List Char),
      parseNodes fuel l = some (ns, r) → wfNodes ns = true ∧
        (∀ s ns2, ns = XNode.text s :: ns2 → ∃ c l2, l = c :: l2 ∧ ¬(c = '<'))) := by
  intro fuel
  induction fuel using Nat.strong_induction_on with
  | _ fuel ih =>
  constructor
  · intro l x r h
    cases fuel with
    | zero => simp [parseElement] at h
    | succ f =>
    cases l with
    | nil => rw [parseElement] at h; cases h
    | cons c r0 =>
    rw [parseElement] at h
    by_cases hc : c = '<'
    · rw [if_pos hc] at h
      cases hpn : parseXmlName r0 with
      | none => simp [hpn] at h
      | some p =>
        obtain ⟨tag, r1⟩ := p
        simp only [hpn] at h
        obtain ⟨htagne, htagall⟩ := parseXmlName_wf r0 tag r1 hpn
        have htagemp : tag.isEmpty = false := by
          cases tag with
          | nil => exact absurd rfl htagne
          | cons a t => rfl
        cases hpa : parseXmlAttrs (r1.length + 1) r1 with
        | none => simp [hpa] at h
        | some q =>
          obtain ⟨attrs, r2⟩ := q
          simp only [hpa] at h
          have hattrswf := parseXmlAttrs_wf _ r1 attrs r2 hpa
          split at h
          · cases h
          · rename_i c2 r3
            by_cases hc2 : c2 = '/'
            · rw [if_pos hc2] at h
              split at h
              · cases h
              · rename_i c3 r4
                by_cases hc3 : c3 = '>'
                · rw [if_pos hc3] at h
                  injection h with h1
                  injection h1 with h2 _
                  rw [← h2]
                  refine ⟨?_, rfl⟩
                  simp [wfNode, htagemp, htagall, hattrswf, wfNodes]
                · simp [hc3] at h
            · rw [if_neg hc2] at h
              by_cases hc2b : c2 = '>'
              · rw [if_pos hc2b] at h
                cases hpns : parseNodes f r3 with
                | none => simp [hpns] at h
                | some q2 =>
                  obtain ⟨children, r4⟩ := q2
                  simp only [hpns] at h
                  have hchildwf := ((ih f (by omega)).2 r3 children r4 hpns).1
                  split at h
                  · rename_i c4 c5 r5
                    by_cases hcl : c4 = '<' ∧ c5 = '/' ∧ tag.isPrefixOf r5 = true
                    · rw [if_pos hcl] at h
                      cases hexp : expectGt (r5.drop tag.length) with
                      | none => simp [hexp] at h
                      | some r6 =>
                        simp only [hexp] at h
                        injection h with h1
                        injection h1 with h2 _
                        rw [← h2]
                        refine ⟨?_, rfl⟩
                        simp [wfNode, htagemp, htagall, hattrswf, hchildwf]
                    · rw [if_neg hcl] at h
                      cases h
                  · cases h
              · simp [hc2b] at h
    · rw [if_neg hc] at h
      cases h
  · intro l ns r h
    cases fuel with
    | zero => simp [parseNodes] at h
    | succ f =>
    cases l with
    | nil =>
      rw [parseNodes] at h
      injection h with h1
      injection h1 with h2 _
      rw [← h2]
      exact ⟨rfl, by intro s ns2 he; cases he⟩
    | cons c r0 =>
    rw [parseNodes] at h
    by_cases hc : c = '<'
    · rw [if_pos hc] at h
      by_cases ht : r0.take 1 = ['/']
      · rw [if_pos ht] at h
        injection h with h1
        injection h1 with h2 _
        rw [← h2]
        exact ⟨rfl, by intro s ns2 he; cases he⟩
      · rw [if_neg ht] at h
        cases hpe : parseElement f (c :: r0) with
        | none => simp [hpe] at h
        | some p =>
          obtain ⟨n, rest1⟩ := p
          simp only [hpe] at h
          cases hpns : parseNodes f rest1 with
          | none => simp [hpns] at h
          | some q =>
            obtain ⟨ns2, r2⟩ := q
            simp only [hpns] at h
            injection h with h1
            injection h1 with h2 _
            rw [← h2]
            obtain ⟨hnwf, hnelem⟩ := (ih f (by omega)).1 (c :: r0) n rest1 hpe
            have hns2wf := ((ih f (by omega)).2 rest1 ns2 r2 hpns).1
            refine ⟨wfNodes_cons_of_elem n ns2 hnwf hns2wf hnelem, ?_⟩
            intro s ns3 he
            injection he with hn1 _
            rw [hn1] at hnelem
            simp [isTextNode] at hnelem
    · rw [if_neg hc] at h
      cases hpns : parseNodes f ((c :: r0).dropWhile (fun d => d != '<')) with
      | none => simp [hpns] at h
      | some q =>
        obtain ⟨ns2, r2⟩ := q
        simp only [hpns] at h
        injection h with h1
        injection h1 with h2 _
        rw [← h2]
        have hns2 := (ih f (by omega)).2 _ ns2 r2 hpns
        have htextwf : wfNode (XNode.text ((c :: r0).takeWhile (fun d => d != '<'))) = true := by
          simp only [wfNode, Bool.and_eq_true, Bool.not_eq_true']
          constructor
          · simp [List.takeWhile_cons, bne_iff_ne, hc]
          · exact takeWhile_bne_not_contains '<' (c :: r0)
        have hns2head : ns2 = [] ∨ ∃ m l3, ns2 = m :: l3 ∧ isTextNode m = false := by
          cases hns2e : ns2 with
          | nil => exact Or.inl rfl
          | cons m l3 =>
            refine Or.inr ⟨m, l3, rfl, ?_⟩
            cases m with
            | element t4 a4 c4 => rfl
            | text s4 =>
              obtain ⟨c5, l5, hdw, hc5⟩ := hns2.2 s4 l3 hns2e
              have := head_dropWhile (fun d => d != '<') (c :: r0) c5 l5 hdw
              rw [bne_eq_false_iff_eq] at this
              exact absurd this hc5
        refine ⟨?_, ?_⟩
        · rcases hns2head with he | ⟨m, l3, he, hm⟩
          · rw [he]
            simpa [wfNodes] using htextwf
          · rw [he]
            rw [he] at hns2
            simp [wfNodes, htextwf, hm, hns2.1, isTextNode]
            exact hm
        · intro s ns3 he
          exact ⟨c, r0, rfl, hc⟩

/-- `parseXml` only returns well-formed element roots. -/
theorem parseXml_wf (s : String) (root : XNode) (h : parseXml s = some root) :
    wfNode root = true ∧ isTextNode root = false := by
  simp only [parseXml] at h
  cases hpe : parseElement ((skipXmlSpace s.data).length + 1) (skipXmlSpace s.data) with
  | none => simp [hpe] at h
  | some p =>
    obtain ⟨n, rest⟩ := p
    simp only [hpe] at h
    by_cases hre : (skipXmlSpace rest).isEmpty = true
    · rw [if_pos hre] at h
      injection h with h1
      rw [← h1]
      exact (parse_wf _).1 _ n rest hpe
    · rw [if_neg hre] at h
      cases h

/-- Serializing a well-formed element and parsing it back is the identity. -/
theorem parseXml_serializeNode (x : XNode) (hwf : wfNode x = true)
    (hel : isTextNode x = false) :
    parseXml (String.mk (serializeNode x)) = some x := by
  cases x with
  | text s => simp [isTextNode] at hel
  | element tag attrs cs =>
    obtain ⟨b, hb⟩ : ∃ b, serializeNode (XNode.element tag attrs cs) = '<' :: b := by
      cases cs <;> exact ⟨_, rfl⟩
    have hdata : (String.mk (serializeNode (XNode.element tag attrs cs))).data =
        serializeNode (XNode.element tag attrs cs) := rfl
    have hsk : skipXmlSpace (serializeNode (XNode.element tag attrs cs)) =
        serializeNode (XNode.element tag attrs cs) := by
      rw [hb]
      simp [skipXmlSpace, List.dropWhile_cons, show isXmlSpace '<' = false from rfl]
    have hfuel : fuelForNode (XNode.element tag attrs cs) ≤
        (serializeNode (XNode.element tag attrs cs)).length + 1 :=
      le_trans (fuelForNode_le _ hwf) (Nat.le_succ _)
    have hround := (parse_serialize_round
      ((serializeNode (XNode.element tag attrs cs)).length + 1)).1
      tag attrs cs [] hwf hfuel
    rw [List.append_nil] at hround
    simp only [parseXml, hdata, hsk, hround]
    rfl

/-! ## The transform preserves well-formedness, tag, and elementness -/

/-- `removeAttr` keeps every attribute well-formed. -/
theorem all_wfAttr_removeAttr (m : List Char) (attrs : List XAttr)
    (h : attrs.all wfAttr = true) : (removeAttr m attrs).all wfAttr = true := by
  rw [List.all_eq_true] at h ⊢
  intro a ha
  exact h a (List.mem_of_mem_filter ha)

/-- `removeRootAttr` preserves well-formedness. -/
theorem wfNode_removeRootAttr (m : List Char) (x : XNode) (h : wfNode x = true) :
    wfNode (removeRootAttr m x) = true := by
  cases x with
  | text s => exact h
  | element tag attrs cs =>
    simp only [removeRootAttr, wfNode, Bool.and_eq_true] at h ⊢
    exact ⟨⟨h.1.1, all_wfAttr_removeAttr m attrs h.1.2⟩, h.2⟩

/-- `removeRootAttr` does not change a node's kind. -/
theorem isTextNode_removeRootAttr (m : List Char) (x : XNode) :
    isTextNode (removeRootAttr m x) = isTextNode x := by
  cases x <;> rfl

/-- `removeClassDeep` does not change a node's kind. -/
theorem isTextNode_removeClassDeep (x : XNode) :
    isTextNode (removeClassDeep x) = isTextNode x := by
  cases x <;> rfl

mutual

/-- `removeClassDeep` preserves well-formedness. -/
theorem wfNode_removeClassDeep (x : XNode) (h : wfNode x = true) :
    wfNode (removeClassDeep x) = true := by
  cases x with
  | text s => exact h
  | element tag attrs cs =>
    simp only [removeClassDeep, wfNode, Bool.and_eq_true] at h ⊢
    exact ⟨⟨h.1.1, all_wfAttr_removeAttr classChars attrs h.1.2⟩,
      wfNodes_removeClassDeepList cs h.2⟩

/-- `removeClassDeepList` preserves well-formedness. -/
theorem wfNodes_removeClassDeepList (l : List XNode) (h : wfNodes l = true) :
    wfNodes (removeClassDeepList l) = true := by
  cases l with
  | nil => rfl
  | cons n rest =>
    cases rest with
    | nil =>
      have h1 : wfNode n = true := h
      have h2 := wfNode_removeClassDeep n h1
      simpa [removeClassDeepList, wfNodes] using h2
    | cons m rest2 =>
      simp only [wfNodes, Bool.and_eq_true, Bool.not_eq_true'] at h
      have h2 := wfNodes_removeClassDeepList (m :: rest2) h.2
      simp only [removeClassDeepList] at h2 ⊢
      simp only [wfNodes, Bool.and_eq_true, Bool.not_eq_true']
      refine ⟨⟨wfNode_removeClassDeep n h.1.1, ?_⟩, h2⟩
      rw [isTextNode_removeClassDeep, isTextNode_removeClassDeep]
      exact h.1.2

end

/-- Conditional `removeRootAttr` step preserves well-formedness. -/
theorem wfNode_step (m : List Char) (x : XNode) (b : Bool) (h : wfNode x = true) :
    wfNode (if b then removeRootAttr m x else x) = true := by
  cases b
  · simpa using h
  · simpa using wfNode_removeRootAttr m x h

/-- Conditional `removeClassDeep` step preserves well-formedness. -/
theorem wfNode_classStep (x : XNode) (b : Bool) (h : wfNode x = true) :
    wfNode (if b then removeClassDeep x else x) = true := by
  cases b
  · simpa using h
  · simpa using wfNode_removeClassDeep x h

/-- The whole option pass preserves well-formedness. -/
theorem wfNode_applyOptions (o : BaseOptions) (x : XNode) (h : wfNode x = true) :
    wfNode (applyOptions o x) = true := by
  unfold applyOptions
  apply wfNode_classStep
  apply wfNode_step
  apply wfNode_step
  apply wfNode_step
  exact h

/-- Conditional `removeRootAttr` step preserves the node kind. -/
theorem isTextNode_step (m : List Char) (x : XNode) (b : Bool) :
    isTextNode (if b then removeRootAttr m x else x) = isTextNode x := by
  cases b
  · simp
  · simpa using isTextNode_removeRootAttr m x

/-- Conditional `removeClassDeep` step preserves the node kind. -/
theorem isTextNode_classStep (x : XNode) (b : Bool) :
    isTextNode (if b then removeClassDeep x else x) = isTextNode x := by
  cases b
  · simp
  · simpa using isTextNode_removeClassDeep x

/-- The whole option pass preserves the node kind. -/
theorem isTextNode_applyOptions (o : BaseOptions) (x : XNode) :
    isTextNode (applyOptions o x) = isTextNode x := by
  unfold applyOptions
  rw [isTextNode_classStep, isTextNode_step, isTextNode_step, isTextNode_step]

/-- `removeRootAttr` preserves the root tag. -/
theorem rootTagLower_removeRootAttr (m : List Char) (x : XNode) :
    rootTagLower (removeRootAttr m x) = rootTagLower x := by
  cases x <;> rfl

/-- `removeClassDeep` preserves the root tag. -/
theorem rootTagLower_removeClassDeep (x : XNode) :
    rootTagLower (removeClassDeep x) = rootTagLower x := by
  cases x <;> rfl

/-- Conditional `removeRootAttr` step preserves the root tag. -/
theorem rootTagLower_step (m : List Char) (x : XNode) (b : Bool) :
    rootTagLower (if b then removeRootAttr m x else x) = rootTagLower x := by
  cases b
  · simp
  · simpa using rootTagLower_removeRootAttr m x

/-- Conditional `removeClassDeep` step preserves the root tag. -/
theorem rootTagLower_classStep (x : XNode) (b : Bool) :
    rootTagLower (if b then removeClassDeep x else x) = rootTagLower x := by
  cases b
  · simp
  · simpa using rootTagLower_removeClassDeep x

/-- The whole option pass preserves the root tag. -/
theorem rootTagLower_applyOptions (o : BaseOptions) (x : XNode) :
    rootTagLower (applyOptions o x) = rootTagLower x := by
  unfold applyOptions
  rw [rootTagLower_classStep, rootTagLower_step, rootTagLower_step, rootTagLower_step]

/-! ## Removing an absent attribute is a no-op -/

/-- `removeAttr` is the identity when the name is absent. -/
theorem removeAttr_of_absent (n : List Char) (attrs : List XAttr)
    (h : attrs.any (fun a => a.name == n) = false) : removeAttr n attrs = attrs := by
  rw [List.any_eq_false] at h
  apply List.filter_eq_self.mpr
  intro a ha
  have hfalse : (a.name == n) = false := by
    cases hb : (a.name == n)
    · rfl
    · exact absurd hb (h a ha)
  simp [bne, hfalse]

/-- `removeRootAttr` is the identity when the root lacks the attribute. -/
theorem removeRootAttr_of_absent (n : List Char) (x : XNode)
    (h : rootHasAttr n x = false) : removeRootAttr n x = x := by
  cases x with
  | text s => rfl
  | element tag attrs cs =>
    simp only [rootHasAttr] at h
    simp [removeRootAttr, removeAttr_of_absent n attrs h]

mutual

/-- `removeClassDeep` is the identity on class-free trees. -/
theorem removeClassDeep_of_noClass (x : XNode) (h : hasClassDeep x = false) :
    removeClassDeep x = x := by
  cases x with
  | text s => rfl
  | element tag attrs cs =>
    simp only [hasClassDeep, Bool.or_eq_false_iff] at h
    simp [removeClassDeep, removeAttr_of_absent classChars attrs h.1,
      removeClassDeepList_of_noClass cs h.2]

/-- `removeClassDeepList` is the identity on class-free lists. -/
theorem removeClassDeepList_of_noClass (l : List XNode) (h : hasClassDeepList l = false) :
    removeClassDeepList l = l := by
  cases l with
  | nil => rfl
  | cons n rest =>
    simp only [hasClassDeepList, Bool.or_eq_false_iff] at h
    simp [removeClassDeepList, removeClassDeep_of_noClass n h.1,
      removeClassDeepList_of_noClass rest h.2]

end

/-! ## The option pass leaves nothing for a second pass to do -/

/-- With `removeXmlns` on, the processed root has no `xmlns`. -/
theorem applyOptions_xmlns_removed (o : BaseOptions) (x : XNode)
    (hb : o.removeXmlns = true) :
    rootHasAttr xmlnsChars (applyOptions o x) = false := by
  unfold applyOptions
  rw [hb]
  simp only [if_true]
  apply rootHasAttr_classStep_false
  apply rootHasAttr_step_false
  apply rootHasAttr_step_false
  exact rootHasAttr_removeRootAttr_self xmlnsChars x

/-- With `removeWidth` on, the processed root has no `width`. -/
theorem applyOptions_width_removed (o : BaseOptions) (x : XNode)
    (hb : o.removeWidth = true) :
    rootHasAttr widthChars (applyOptions o x) = false := by
  unfold applyOptions
  rw [hb]
  simp only [if_true]
  apply rootHasAttr_classStep_false
  apply rootHasAttr_step_false
  exact rootHasAttr_removeRootAttr_self widthChars _

/-- With `removeHeight` on, the processed root has no `height`. -/
theorem applyOptions_height_removed (o : BaseOptions) (x : XNode)
    (hb : o.removeHeight = true) :
    rootHasAttr heightChars (applyOptions o x) = false := by
  unfold applyOptions
  rw [hb]
  simp only [if_true]
  apply rootHasAttr_classStep_false
  exact rootHasAttr_removeRootAttr_self heightChars _

/-- With `removeClasses` on, the processed tree has no `class` anywhere. -/
theorem applyOptions_class_removed (o : BaseOptions) (x : XNode)
    (hb : o.removeClasses = true) :
    hasClassDeep (applyOptions o x) = false := by
  unfold applyOptions
  rw [hb]
  simp only [if_true]
  exact hasClassDeep_removeClassDeep_false _

/-- The option pass is the identity on trees already missing everything the
enabled flags would remove. -/
theorem applyOptions_id_of_processed (o : BaseOptions) (y : XNode)
    (h1 : o.removeXmlns = true → rootHasAttr xmlnsChars y = false)
    (h2 : o.removeWidth = true → rootHasAttr widthChars y = false)
    (h3 : o.removeHeight = true → rootHasAttr heightChars y = false)
    (h4 : o.removeClasses = true → hasClassDeep y = false) :
    applyOptions o y = y := by
  have e1 : (if o.removeXmlns then removeRootAttr xmlnsChars y else y) = y := by
    cases hb : o.removeXmlns with
    | false => simp
    | true => simp [removeRootAttr_of_absent _ _ (h1 hb)]
  have e2 : (if o.removeWidth then removeRootAttr widthChars y else y) = y := by
    cases hb : o.removeWidth with
    | false => simp
    | true => simp [removeRootAttr_of_absent _ _ (h2 hb)]
  have e3 : (if o.removeHeight then removeRootAttr heightChars y else y) = y := by
    cases hb : o.removeHeight with
    | false => simp
    | true => simp [removeRootAttr_of_absent _ _ (h3 hb)]
  have e4 : (if o.removeClasses then removeClassDeep y else y) = y := by
    cases hb : o.removeClasses with
    | false => simp
    | true => simp [removeClassDeep_of_noClass _ (h4 hb)]
  simp only [applyOptions, e1, e2, e3, e4]

/-- Applying the same options twice equals applying them once. -/
theorem applyOptions_applyOptions (o : BaseOptions) (x : XNode) :
    applyOptions o (applyOptions o x) = applyOptions o x :=
  applyOptions_id_of_processed o (applyOptions o x)
    (fun hb => applyOptions_xmlns_removed o x hb)
    (fun hb => applyOptions_width_removed o x hb)
    (fun hb => applyOptions_height_removed o x hb)
    (fun hb => applyOptions_class_removed o x hb)

/-- A serialized element is never all-whitespace. -/
theorem serialize_element_not_ws (tag : List Char) (attrs : List XAttr) (cs : List XNode) :
    ((serializeNode (XNode.element tag attrs cs)).all isJsWhitespace) = false := by
  obtain ⟨b, hb⟩ : ∃ b, serializeNode (XNode.element tag attrs cs) = '<' :: b := by
    cases cs <;> exact ⟨_, rfl⟩
  rw [hb]
  simp [List.all_cons, show isJsWhitespace '<' = false from rfl]

/-! ## Claim C6: the transform is idempotent -/

/-- C6: for every input text and every options record, transforming the
transform's own output with the same options changes nothing. -/
theorem optimizeSvgBase_idempotent (s : String) (o : BaseOptions) :
    optimizeSvgBase (optimizeSvgBase s o) o = optimizeSvgBase s o := by
  cases hws : s.data.all isJsWhitespace with
  | true =>
    have h1 : optimizeSvgBase s o = "" := by
      unfold optimizeSvgBase
      rw [if_pos hws]
    rw [h1]
    unfold optimizeSvgBase
    rw [if_pos (by rfl)]
  | false =>
    cases hp : parseXml s with
    | none =>
      have h1 : optimizeSvgBase s o = s := by
        unfold optimizeSvgBase
        rw [hws, hp]
        simp
      rw [h1, h1]
    | some root =>
      by_cases htag : rootTagLower root = svgChars
      · obtain ⟨hwfroot, helroot⟩ := parseXml_wf s root hp
        have hwft : wfNode (applyOptions o root) = true := wfNode_applyOptions o root hwfroot
        have helt : isTextNode (applyOptions o root) = false := by
          rw [isTextNode_applyOptions]
          exact helroot
        obtain ⟨tag2, attrs2, cs2, ht2⟩ :
            ∃ t a c, applyOptions o root = XNode.element t a c := by
          cases he : applyOptions o root with
          | text s2 => rw [he] at helt; simp [isTextNode] at helt
          | element t a c => exact ⟨t, a, c, rfl⟩
        have h1 : optimizeSvgBase s o =
            String.mk (serializeNode (applyOptions o root)) := by
          unfold optimizeSvgBase
          rw [hws, hp]
          simp only [Bool.false_eq_true, if_false]
          rw [if_neg (by simp [htag])]
        have h2 : optimizeSvgBase (String.mk (serializeNode (applyOptions o root))) o =
            String.mk (serializeNode (applyOptions o root)) := by
          unfold optimizeSvgBase
          have hnws : ((String.mk (serializeNode (applyOptions o root))).data.all
              isJsWhitespace) = false := by
            have : (String.mk (serializeNode (applyOptions o root))).data =
                serializeNode (applyOptions o root) := rfl
            rw [this, ht2]
            exact serialize_element_not_ws tag2 attrs2 cs2
          rw [hnws]
          simp only [Bool.false_eq_true, if_false]
          have htag2 : rootTagLower (applyOptions o root) = svgChars := by
            rw [rootTagLower_applyOptions]
            exact htag
          simp only [parseXml_serializeNode (applyOptions o root) hwft helt]
          rw [if_neg (by simp [htag2])]
          rw [applyOptions_applyOptions]
        rw [h1, h2]
      · have h1 : optimizeSvgBase s o = s := by
          unfold optimizeSvgBase
          rw [hws, hp]
          simp only [Bool.false_eq_true, if_false]
          rw [if_pos htag]
        rw [h1, h1]
